import Mathlib

/-!
Shallow embedding of `tools/migrate_lang.py`: a source-to-source migration
engine that rewrites `MSG(MSG_XXX)` call sites into `LA_F` / `LA_S` / `LA_W`
macro calls, driven by a catalog parsed from a `messages_en` table literal.

Strings are modelled as `List Char`; the Python dict is modelled as an
association list; stderr warnings are modelled as an explicit list carried in
the rewrite result; file I/O is modelled as a function from paths to optional
contents, with uncaught Python exceptions modelled by `Except`.
-/

deriving instance DecidableEq for Except

/-- Convert a Lean string literal to the character-list representation. -/
def chars (s : String) : List Char := s.data

/-- Whitespace, as recognised by Python's `str.rstrip` / regex `\s` on ASCII. -/
def isSpace (c : Char) : Bool :=
  c = ' ' || c = '\t' || c = '\n' || c = '\r' || c = '\x0b' || c = '\x0c'

/-- Word characters, as matched by the regex class `\w` on ASCII. -/
def isWordChar (c : Char) : Bool :=
  c.isAlpha || c.isDigit || c = '_'

/-- Maximal leading run of word characters (the greedy `\w*` scan). -/
def wordRun : List Char → List Char
  | [] => []
  | c :: t => if isWordChar c then c :: wordRun t else []

/-- Python `s[a:b]` for `0 ≤ a ≤ b` (indices clamp to the list length). -/
def pySlice (l : List Char) (a b : Nat) : List Char := (l.drop a).take (b - a)

/-- Python `pat in s` substring test (for nonempty `pat`). -/
def pyContains (pat : List Char) : List Char → Bool
  | [] => pat.isEmpty
  | c :: t => pat.isPrefixOf (c :: t) || pyContains pat t

/-- Structural worker for `s.replace` (the gas argument only forces
termination; `s.length` steps always suffice). -/
def pyReplaceGas (pat rep : List Char) : Nat → List Char → List Char
  | _, [] => []
  | 0, s => s
  | g + 1, c :: t =>
    if pat ≠ [] ∧ pat.isPrefixOf (c :: t) then
      rep ++ pyReplaceGas pat rep g ((c :: t).drop pat.length)
    else
      c :: pyReplaceGas pat rep g t

/-- Python `s.replace(pat, rep)`: replace all non-overlapping occurrences,
scanning left to right, never rescanning emitted replacement text. -/
def pyReplace (pat rep s : List Char) : List Char :=
  pyReplaceGas pat rep s.length s

/-- Python dict lookup `d[k]` / `k in d` (keys are unique in a dict, so the
first binding is the binding). -/
def dictGet : List (List Char × List Char) → List Char → Option (List Char)
  | [], _ => none
  | (k', v) :: t, k => if k' = k then some v else dictGet t k

/-- Python dict assignment `d[k] = v`: overwrite an existing binding in place,
otherwise append (later assignments to the same key win). -/
def dictInsert : List (List Char × List Char) → List Char → List Char →
    List (List Char × List Char)
  | [], k, v => [(k, v)]
  | (k', v') :: t, k, v =>
    if k' = k then (k', v) :: t else (k', v') :: dictInsert t k v

/-- Tail test for `re.search(r'"%s"\s*,\s*$', context_before.rstrip())`:
ignoring trailing whitespace, the context ends with `"%s"`, optional
whitespace, and a comma. -/
def endsFmtComma (ctx : List Char) : Bool :=
  match ctx.reverse.dropWhile isSpace with
  | ',' :: r2 => ('"' :: 's' :: '%' :: '"' :: []).isPrefixOf (r2.dropWhile isSpace)
  | _ => false

/-- Tail test for `re.search(r'\)\s*,\s*$', context_before.rstrip())`:
ignoring trailing whitespace, the context ends with `)`, optional whitespace,
and a comma. -/
def endsParenComma (ctx : List Char) : Bool :=
  match ctx.reverse.dropWhile isSpace with
  | ',' :: r2 =>
    match r2.dropWhile isSpace with
    | ')' :: _ => true
    | _ => false
  | _ => false

/-- The classifier choose_macro (en_str, context_before): pick `LA_F` / `LA_S` / `LA_W`
from the string contents and the call-site context. -/
def choose_macro (en_str context_before : List Char) : List Char :=
  if en_str.elem '%' then chars "LA_F"
  else if endsFmtComma context_before then chars "LA_S"
  else if endsParenComma context_before then chars "LA_S"
  else chars "LA_W"

/-- Match the call-site pattern at the head of the list.  On success, return
the word-character run `r` such that the matched text is
`MSG(MSG_` ++ `r` ++ `)` (total length `9 + r.length`). -/
def msgMatch : List Char → Option (List Char)
  | 'M' :: 'S' :: 'G' :: '(' :: 'M' :: 'S' :: 'G' :: '_' :: rest =>
    if wordRun rest = [] then none
    else
      match rest.drop (wordRun rest).length with
      | ')' :: _ => some (wordRun rest)
      | _ => none
  | _ => none

/-- The captured group of a match: `MSG_` followed by the word run. -/
def msgKey (r : List Char) : List Char := 'M' :: 'S' :: 'G' :: '_' :: r

/-- Structural worker for the scan (the gas argument only forces
termination; `s.length - i` steps always suffice). -/
def finditerGas (s : List Char) : Nat → Nat → List (Nat × List Char × Nat)
  | 0, _ => []
  | g + 1, i =>
    if i < s.length then
      match msgMatch (s.drop i) with
      | some r =>
        (i, msgKey r, i + 9 + r.length) :: finditerGas s g (i + 9 + r.length)
      | none => finditerGas s g (i + 1)
    else []

/-- Python `re.finditer` for the call-site pattern, scanning from index `i`:
non-overlapping matches in left-to-right order, as `(start, key, end)`
triples over the original buffer's coordinate space. -/
def finditerFrom (s : List Char) (i : Nat) : List (Nat × List Char × Nat) :=
  finditerGas s (s.length - i) i

/-- Result of rewriting one buffer: the transformed text, the count of
successful replacements, and the keys warned about on stderr (one warning
per occurrence whose key is absent from the catalog). -/
structure RewriteResult where
  transformed : List Char
  replaced : Nat
  warnings : List (List Char)
deriving DecidableEq, Repr

/-- The number of skipped (unresolved-key) occurrences: one warning is
emitted per skipped occurrence. -/
def RewriteResult.skipped (r : RewriteResult) : Nat := r.warnings.length

/-- The replacement text emitted for a resolved call site:
`f'{macro}("{en_str}", 0)'`. -/
def blockOf (mac v : List Char) : List Char :=
  mac ++ ('(' :: '"' :: v) ++ ('"' :: ',' :: ' ' :: '0' :: ')' :: [])

/-- The loop of `transform_file` over the matches: maintain a cursor `pos`
into the original buffer; for an unresolved key copy `original[pos:end]`
unchanged and warn; otherwise copy `original[pos:start]`, classify using the
40-character window of original text before the match, and emit the macro
call; finally append `original[pos:]`. -/
def runMatches (m : List (List Char × List Char)) (original : List Char) :
    List (Nat × List Char × Nat) → Nat → RewriteResult
  | [], pos => ⟨original.drop pos, 0, []⟩
  | (s, k, e) :: rest, pos =>
    let r := runMatches m original rest e
    match dictGet m k with
    | none => ⟨pySlice original pos e ++ r.transformed, r.replaced, k :: r.warnings⟩
    | some v =>
      let ctx := pySlice original (s - 40) s
      let mac := choose_macro v ctx
      ⟨pySlice original pos s ++ blockOf mac v ++ r.transformed,
       r.replaced + 1, r.warnings⟩

/-- The include directive rewritten away by `transform_file`. -/
def includePat : List Char := chars "#include \"p2p_lang.h\""

/-- Its post-migration replacement. -/
def includeRep : List Char := chars "#include \"LANG.h\""

/-- The pure core of `transform_file`: scan the buffer for call sites,
rewrite them through the catalog, then substitute the include directive in
the fully rewritten buffer. -/
def transform (m : List (List Char × List Char)) (original : List Char) :
    RewriteResult :=
  let r := runMatches m original (finditerFrom original 0) 0
  let t :=
    if pyContains includePat r.transformed then
      pyReplace includePat includeRep r.transformed
    else r.transformed
  ⟨t, r.replaced, r.warnings⟩

/-- Expect one specific character at the head of the input, returning the
rest. -/
def expectChar (c : Char) : List Char → Option (List Char)
  | x :: t => if x = c then some t else none
  | [] => none

/-- Scan a string-literal body as the regex fragment `((?:[^"\\]|\\.)*)"`
does: return the raw content (escape sequences kept byte-for-byte,
uninterpreted) and the text after the closing quote. -/
def strContent : List Char → Option (List Char × List Char)
  | [] => none
  | [c] => if c = '"' then some ([], []) else none
  | c :: d :: t2 =>
    if c = '"' then some ([], d :: t2)
    else if c = '\\' then
      if d = '\n' then none
      else (strContent t2).map fun p => (c :: d :: p.1, p.2)
    else (strContent (d :: t2)).map fun p => (c :: p.1, p.2)

/-- Match one `[KEY] = "STRING"` entry (regex
`\[(\w+)\]\s*=\s*"((?:[^"\\]|\\.)*)"`) at the head of the list, returning
the key, the raw string payload, and the rest of the input. -/
def entryMatch (s : List Char) : Option (List Char × List Char × List Char) := do
  let t ← expectChar '[' s
  let w := wordRun t
  if w = [] then none
  else do
    let t3 ← expectChar ']' (t.drop w.length)
    let t5 ← expectChar '=' (t3.dropWhile isSpace)
    let t7 ← expectChar '"' (t5.dropWhile isSpace)
    let p ← strContent t7
    pure (w, p.1, p.2)

/-- Structural worker for the entry scan (the gas argument only forces
termination; `s.length` steps always suffice, since an entry match always
consumes at least one character). -/
def findEntriesGas : Nat → List Char → List (List Char × List Char)
  | _, [] => []
  | 0, _ => []
  | g + 1, c :: t =>
    match entryMatch (c :: t) with
    | some p => (p.1, p.2.1) :: findEntriesGas g p.2.2
    | none => findEntriesGas g t

/-- Python `re.finditer` for the entry regex over the table body: scan left to
right, taking non-overlapping entry matches. -/
def findEntries (s : List Char) : List (List Char × List Char) :=
  findEntriesGas s.length s

/-- Build the Python dict from the entry list (later duplicate keys
overwrite earlier ones). -/
def buildDict (es : List (List Char × List Char)) :
    List (List Char × List Char) :=
  es.foldl (fun d kv => dictInsert d kv.1 kv.2) []

/-- The opening declaration of the table region (regex prefix
`static const char\* messages_en\[MSG_COUNT\]`). -/
def tableLit : List Char := chars "static const char* messages_en[MSG_COUNT]"

/-- Split off the text before the first occurrence of `pat`, returning the
pair (before, after-`pat`); the non-greedy `(.*?)` bounded by a literal. -/
def splitAtSub (pat : List Char) : List Char → Option (List Char × List Char)
  | [] => if pat = [] then some ([], []) else none
  | c :: t =>
    if pat.isPrefixOf (c :: t) then some ([], (c :: t).drop pat.length)
    else
      match splitAtSub pat t with
      | some p => some (c :: p.1, p.2)
      | none => none

/-- Try to match the whole table-region regex
`static const char\* messages_en\[MSG_COUNT\]\s*=\s*\{(.*?)\};` (DOTALL)
at the head of the input, returning the captured body. -/
def regionAt (s : List Char) : Option (List Char) := do
  if tableLit.isPrefixOf s then
    let t := (s.drop tableLit.length).dropWhile isSpace
    let t2 ← expectChar '=' t
    let t4 ← expectChar '\x7b' (t2.dropWhile isSpace)
    let p ← splitAtSub ('\x7d' :: ';' :: []) t4
    pure p.1
  else none

/-- Python `re.search` for the table-region regex: the match at the leftmost
possible starting position wins. -/
def searchRegion : List Char → Option (List Char)
  | [] => none
  | c :: t =>
    match regionAt (c :: t) with
    | some b => some b
    | none => searchRegion t

/-- The parser `parse_en_table`: locate the `messages_en` table region and extract the
key/value entries into a dict; raise (`Except.error`) if the region is
missing. -/
def parse_en_table (text : List Char) :
    Except Unit (List (List Char × List Char)) :=
  match searchRegion text with
  | none => .error ()
  | some body => .ok (buildDict (findEntries body))

/-- One console report line for a file, as printed by `transform_file`. -/
inductive Report where
  | dryPreview (path : String) (replaced : Nat)
  | written (path : String) (replaced : Nat)
  | unchanged (path : String)
deriving DecidableEq, Repr

/-- The file system: a mapping from paths to contents. -/
def FileSys := String → Option (List Char)

/-- Overwrite one file's contents. -/
def writeFS (fs : FileSys) (path : String) (content : List Char) : FileSys :=
  fun q => if q = path then some content else fs q

/-- The driver shell `transform_file(src_path, msg_map, dry_run)`: read the file (an absent
file raises, modelled as `Except.error`), rewrite it, then either report a
dry-run preview (only when something was replaced) or write the buffer back
(only when it changed) and report the verdict.  Returns the new file system,
the per-file replaced count, and the optional report line. -/
def transform_file (fs : FileSys) (m : List (List Char × List Char))
    (dry_run : Bool) (path : String) :
    Except Unit (FileSys × Nat × Option Report) :=
  match fs path with
  | none => .error ()
  | some original =>
    let r := transform m original
    if dry_run then
      .ok (fs, r.replaced,
        if r.replaced ≠ 0 then some (.dryPreview path r.replaced) else none)
    else
      if r.transformed ≠ original then
        .ok (writeFS fs path r.transformed, r.replaced,
          some (.written path r.replaced))
      else
        .ok (fs, r.replaced, some (.unchanged path))

/-- The `main` loop over the file list: process files in order, summing the
replaced counts; an exception from any file propagates and aborts the whole
batch (there is no try/except around the loop). -/
def runBatch (fs : FileSys) (m : List (List Char × List Char))
    (dry_run : Bool) : List String → Except Unit (FileSys × Nat × List Report)
  | [] => .ok (fs, 0, [])
  | p :: rest =>
    match transform_file fs m dry_run p with
    | .error e => .error e
    | .ok (fs2, n, rep) =>
      match runBatch fs2 m dry_run rest with
      | .error e => .error e
      | .ok (fs3, total, reps) =>
        .ok (fs3, n + total, match rep with | some x => x :: reps | none => reps)

/-- All characters of a word run are word characters. -/
def allW (r : List Char) : Prop := ∀ c ∈ r, isWordChar c = true

/-- The text matched by a successful call-site match: `MSG(MSG_` ++ r ++ `)`. -/
def msgSpan (r : List Char) : List Char :=
  'M' :: 'S' :: 'G' :: '(' :: 'M' :: 'S' :: 'G' :: '_' :: (r ++ [')'])

/-- Characters that can appear inside a matched call-site span. -/
def chOKb (c : Char) : Bool := c = '(' || c = ')' || isWordChar c

/-- The unchanged original segments between consecutive matched spans
(before the first span, between spans, and after the last span), read
directly from the original buffer. -/
def gapsFrom (orig : List Char) :
    List (Nat × List Char × Nat) → Nat → List (List Char)
  | [], pos => [orig.drop pos]
  | (s, _, _e) :: rest, pos => pySlice orig pos s :: gapsFrom orig rest _e

/-- Interleave gap segments with replacement segments: one replacement
follows each gap except the final gap. -/
def joinGR : List (List Char) → List (List Char) → List Char
  | g :: gs, r :: rs => g ++ r ++ joinGR gs rs
  | g :: _, [] => g
  | [], _ => []

/-- What one occurrence turns into: the untouched original span when its key
is unresolved, or the emitted macro call when the key resolves. -/
def repFor (m : List (List Char × List Char)) (orig : List Char)
    (x : Nat × List Char × Nat) : List Char :=
  match dictGet m x.2.1 with
  | none => pySlice orig x.1 x.2.2
  | some v => blockOf ( choose_macro v (pySlice orig (x.1 - 40) x.1)) v

/-- Spec reading of rule 2: the context is anything followed by a quoted
`%s` placeholder, optional whitespace, a comma, and trailing whitespace. -/
def SpecChainedFmt (ctx : List Char) : Prop :=
  ∃ a w1 w2 : List Char, (∀ c ∈ w1, isSpace c = true) ∧
    (∀ c ∈ w2, isSpace c = true) ∧
    ctx = a ++ ('"' :: '%' :: 's' :: '"' :: []) ++ w1 ++ [','] ++ w2

/-- Spec reading of rule 3: the context is anything followed by a closing
parenthesis, optional whitespace, a comma, and trailing whitespace. -/
def SpecChainedParen (ctx : List Char) : Prop :=
  ∃ a w1 w2 : List Char, (∀ c ∈ w1, isSpace c = true) ∧
    (∀ c ∈ w2, isSpace c = true) ∧
    ctx = a ++ [')'] ++ w1 ++ [','] ++ w2

/-- Bounded check that a string contains no occurrence of the call-site
pattern anywhere. -/
def noOccB (v : List Char) : Bool :=
  decide (∀ q, q < v.length → msgMatch (v.drop q) = none)

/-- Example catalog for the C8 scenario. -/
def cat8 : List (List Char × List Char) :=
  [(chars "MSG_HELLO", chars "hello %s"), (chars "MSG_BYE", chars "bye")]

/-- A catalog whose value itself contains a call-site occurrence. -/
def mbad : List (List Char × List Char) :=
  [(chars "MSG_A", chars "MSG(MSG_A)")]

/-- A small well-behaved catalog. -/
def mgood : List (List Char × List Char) :=
  [(chars "MSG_A", chars "hi")]

/-- A file system with a single file `b.c` (and in particular no `a.c`). -/
def fsB : FileSys := fun p =>
  if p = "b.c" then some (chars "MSG(MSG_A) x") else none

/-- A file system with a single file `t.c`. -/
def fs0 : FileSys := fun p =>
  if p = "t.c" then some (chars "x MSG(MSG_A);") else none

/-- A file whose only rewritable content is two include directives. -/
def fsInc : FileSys := fun p =>
  if p = "i.c" then
    some (chars "#include \"p2p_lang.h\"\nx\n#include \"p2p_lang.h\"\n")
  else none

/-- A catalog source text with a well-formed table region: one duplicated
key, one value with escape sequences, and comments between entries. -/
def catalogText1 : List Char :=
  chars "// hdr\nstatic const char* messages_en[MSG_COUNT] = \x7b\n  [MSG_A] = \"a\", /* cm */\n  [MSG_C] = \"a\\\"b\\\\n\",\n  [MSG_B] = \"plain\",\n  [MSG_A] = \"later\",\n\x7d;\nrest"

/-- A catalog source text whose table region contains no entries. -/
def catalogText2 : List Char :=
  chars "static const char* messages_en[MSG_COUNT] = \x7b /* none */ \x7d; tail"

/-- A string-literal payload that the entry regex fragment
`((?:[^"\\]|\\.)*)"` scans in full: a sequence of units, each either a
plain character (neither a quote nor a backslash) or a backslash escape
over a non-newline character (without DOTALL the `.` of `\\.` refuses a
newline). -/
def validStrB : List Char → Bool
  | [] => true
  | [c] => !(c = '"' || c = '\\')
  | c :: d :: t =>
    if c = '"' then false
    else if c = '\\' then (if d = '\n' then false else validStrB t)
    else validStrB (d :: t)

/-- A key the entry regex accepts: a nonempty run of word characters. -/
def validKeyB (k : List Char) : Bool := !k.isEmpty && k.all isWordChar

/-- Filler text that can never start a table entry: it contains no opening
bracket. -/
def noBracketB (w : List Char) : Bool := w.all fun c => !(c = '[')

/-- One table entry as laid out in the region body: the filler text before
it, its key, the whitespace around its equals sign, and its raw string
payload. -/
structure TableEntry where
  sep : List Char
  key : List Char
  ws1 : List Char
  ws2 : List Char
  val : List Char
deriving DecidableEq, Repr

/-- The text of one `[KEY] = "STRING"` entry. -/
def renderEntry (k a b v : List Char) : List Char :=
  '[' :: (k ++ (']' :: (a ++ ('=' :: (b ++ ('"' :: (v ++ ['"'])))))))

/-- A table-region body: filler, entry, filler, entry, and so on, closed by
trailing filler. -/
def renderBody : List TableEntry → List Char → List Char
  | [], wend => wend
  | e :: rest, wend =>
    e.sep ++ (renderEntry e.key e.ws1 e.ws2 e.val ++ renderBody rest wend)

/-- Well-formedness of one laid-out entry: bracket-free filler before it, a
nonempty word-character key, whitespace around the equals sign, and a
scannable string payload. -/
def validEntry (e : TableEntry) : Bool :=
  noBracketB e.sep && validKeyB e.key && e.ws1.all isSpace &&
    e.ws2.all isSpace && validStrB e.val

/-- Well-formedness of a laid-out entry list. -/
def validEntries (items : List TableEntry) : Bool := items.all validEntry

/-- The key/value pairs of a laid-out entry list, in order. -/
def entriesOf (items : List TableEntry) : List (List Char × List Char) :=
  items.map fun e => (e.key, e.val)

/-- The value of the last binding of a key in an entry list: the last-wins
reading of repeated dict assignment. -/
def lastVal : List (List Char × List Char) → List Char → Option (List Char)
  | [], _ => none
  | (k2, v) :: t, k =>
    match lastVal t k with
    | some w => some w
    | none => if k2 = k then some v else none

/-- The entry list laid out in the table region of `catalogText1`. -/
def items1 : List TableEntry :=
  [⟨chars "\n  ", chars "MSG_A", [' '], [' '], chars "a"⟩,
   ⟨chars ", /* cm */\n  ", chars "MSG_C", [' '], [' '], chars "a\\\"b\\\\n"⟩,
   ⟨chars ",\n  ", chars "MSG_B", [' '], [' '], chars "plain"⟩,
   ⟨chars ",\n  ", chars "MSG_A", [' '], [' '], chars "later"⟩]

theorem strContent_length : ∀ (s cnt r : List Char),
    strContent s = some (cnt, r) → r.length < s.length
  | [], _, _ => by simp [strContent]
  | [c], cnt, r => by
    intro h
    by_cases hq : c = '"'
    · simp only [strContent, if_pos hq, Option.some.injEq, Prod.mk.injEq] at h
      simp [← h.2]
    · simp [strContent, hq] at h
  | c :: d :: t2, cnt, r => by
    intro h
    by_cases hq : c = '"'
    · simp only [strContent, if_pos hq, Option.some.injEq, Prod.mk.injEq] at h
      simp [← h.2]
    · by_cases hb : c = '\\'
      · by_cases hd : d = '\n'
        · simp [strContent, hq, hb, hd] at h
        · simp only [strContent, if_neg hq, if_pos hb, if_neg hd] at h
          match hs : strContent t2 with
          | some p =>
            rw [hs] at h
            simp only [Option.map_some', Option.some.injEq, Prod.mk.injEq] at h
            have := strContent_length t2 p.1 p.2 (by rw [hs])
            simp only [← h.2, List.length_cons]
            omega
          | none => rw [hs] at h; exact absurd h (by simp)
      · simp only [strContent, if_neg hq, if_neg hb] at h
        match hs : strContent (d :: t2) with
        | some p =>
          rw [hs] at h
          simp only [Option.map_some', Option.some.injEq, Prod.mk.injEq] at h
          have := strContent_length (d :: t2) p.1 p.2 (by rw [hs])
          simp only [List.length_cons] at this
          simp only [← h.2, List.length_cons]
          omega
        | none => rw [hs] at h; exact absurd h (by simp)

theorem expectChar_eq {c : Char} {s t : List Char} :
    expectChar c s = some t → s = c :: t := by
  match s with
  | [] => simp [expectChar]
  | x :: t2 =>
    simp only [expectChar]
    by_cases hx : x = c
    · subst hx; simp
    · simp [hx]

theorem entryMatch_length {s k v rest : List Char} :
    entryMatch s = some (k, v, rest) → rest.length < s.length := by
  intro h
  unfold entryMatch at h
  cases h1 : expectChar '[' s with
  | none => rw [h1] at h; simp at h
  | some t =>
    rw [h1] at h
    simp only [Option.bind_eq_bind, Option.some_bind] at h
    by_cases hw : wordRun t = []
    · rw [if_pos hw] at h; simp at h
    · rw [if_neg hw] at h
      cases h3 : expectChar ']' (t.drop (wordRun t).length) with
      | none => rw [h3] at h; simp at h
      | some t3 =>
        rw [h3] at h
        simp only [Option.bind_eq_bind, Option.some_bind] at h
        cases h5 : expectChar '=' (t3.dropWhile isSpace) with
        | none => rw [h5] at h; simp at h
        | some t5 =>
          rw [h5] at h
          simp only [Option.some_bind] at h
          cases h7 : expectChar '"' (t5.dropWhile isSpace) with
          | none => rw [h7] at h; simp at h
          | some t7 =>
            rw [h7] at h
            simp only [Option.some_bind] at h
            cases h9 : strContent t7 with
            | none => rw [h9] at h; simp at h
            | some p =>
              rw [h9] at h
              simp only [Option.some_bind, pure, Option.some.injEq,
                Prod.mk.injEq] at h
              have hs := expectChar_eq h1
              have e3 := congrArg List.length (expectChar_eq h3)
              have e5 := congrArg List.length (expectChar_eq h5)
              have e7 := congrArg List.length (expectChar_eq h7)
              have l3 : t3.length < t.length := by
                simp only [List.length_drop, List.length_cons] at e3
                have : 0 < (wordRun t).length := List.length_pos.mpr hw
                omega
              have l5 : t5.length < t3.length + 1 := by
                have := (List.dropWhile_sublist (p := isSpace) (l := t3)).length_le
                simp only [List.length_cons] at e5
                omega
              have l7 : t7.length < t5.length + 1 := by
                have := (List.dropWhile_sublist (p := isSpace) (l := t5)).length_le
                simp only [List.length_cons] at e7
                omega
              have lp : p.2.length < t7.length :=
                strContent_length t7 p.1 p.2 (by rw [h9])
              have hr : rest = p.2 := by rw [← h.2.2]
              subst hr
              rw [hs]
              simp only [List.length_cons]
              omega

theorem wordRun_allW (s : List Char) : allW (wordRun s) := by
  induction s with
  | nil => intro c hc; simp [wordRun] at hc
  | cons c t ih =>
    intro d hd
    simp only [wordRun] at hd
    by_cases hc : isWordChar c
    · rw [if_pos hc] at hd
      rcases List.mem_cons.mp hd with h | h
      · rw [h]; exact hc
      · exact ih d h
    · rw [if_neg hc] at hd; simp at hd

theorem wordRun_append_drop (s : List Char) :
    wordRun s ++ s.drop (wordRun s).length = s := by
  induction s with
  | nil => simp [wordRun]
  | cons c t ih =>
    simp only [wordRun]
    by_cases hc : isWordChar c
    · rw [if_pos hc]
      simp only [List.length_cons, List.drop_succ_cons, List.cons_append]
      rw [ih]
    · rw [if_neg hc]; simp

theorem wordRun_of_append {r : List Char} {c : Char} (z : List Char)
    (hr : allW r) (hc : isWordChar c = false) :
    wordRun (r ++ c :: z) = r := by
  induction r with
  | nil => simp [wordRun, hc]
  | cons a t ih =>
    simp only [List.cons_append, wordRun]
    rw [if_pos (hr a (List.mem_cons_self a t))]
    rw [show t.append (c :: z) = t ++ c :: z from rfl]
    rw [ih (fun d hd => hr d (List.mem_cons_of_mem a hd))]

theorem msgSpan_length (r : List Char) : (msgSpan r).length = 9 + r.length := by
  simp [msgSpan]; omega

/-- Characterisation of the regex `MSG\((MSG_\w+)\)` matching at the head of
the input. -/
theorem msgMatch_iff {s r : List Char} :
    msgMatch s = some r ↔
      r ≠ [] ∧ allW r ∧ ∃ rest, s = msgSpan r ++ rest := by
  constructor
  · intro h
    rw [msgMatch.eq_def] at h
    split at h
    · rename_i rest0
      by_cases hr : wordRun rest0 = []
      · rw [if_pos hr] at h; exact absurd h (by simp)
      · rw [if_neg hr] at h
        cases hdrop : rest0.drop (wordRun rest0).length with
        | nil => rw [hdrop] at h; exact absurd h (by simp)
        | cons c rest1 =>
          rw [hdrop] at h
          split at h
          · rename_i tail heq
            simp only [Option.some.injEq] at h
            subst h
            obtain ⟨hc, htail⟩ := List.cons_eq_cons.mp heq
            subst hc
            refine ⟨hr, wordRun_allW rest0, rest1, ?_⟩
            simp only [msgSpan, List.cons_append, List.cons.injEq, true_and]
            rw [List.append_assoc, List.singleton_append, ← hdrop,
              wordRun_append_drop]
          · exact absurd h (by simp)
    · exact absurd h (by simp)
  · rintro ⟨hr, hw, rest, hs⟩
    subst hs
    have hshape : msgSpan r ++ rest =
        'M' :: 'S' :: 'G' :: '(' :: 'M' :: 'S' :: 'G' :: '_' ::
          (r ++ ')' :: rest) := by
      simp [msgSpan]
    rw [hshape, msgMatch]
    have hrun : wordRun (r ++ ')' :: rest) = r :=
      wordRun_of_append rest hw (by decide)
    rw [hrun, if_neg hr, List.drop_left]
    rfl

theorem msgSpan_all_chOKb {r : List Char} (hw : allW r) :
    (msgSpan r).all chOKb = true := by
  simp only [msgSpan, List.all_cons, List.all_append, Bool.and_eq_true,
    List.all_eq_true]
  refine ⟨by decide, by decide, by decide, by decide, by decide, by decide,
    by decide, by decide, ?_, by decide⟩
  intro c hc
  have := hw c hc
  simp [chOKb, this]

theorem take_of_append_le {x y : List Char} {n : Nat} (h : n ≤ x.length) :
    (x ++ y).take n = x.take n := by
  rw [List.take_append_eq_append_take]
  have : n - x.length = 0 := by omega
  rw [this]
  simp

theorem append_split {x y u v : List Char} (h : x ++ y = u ++ v)
    (hl : u.length ≤ x.length) :
    x = u ++ x.drop u.length ∧ v = x.drop u.length ++ y := by
  have h1 : x.take u.length = u := by
    have h2 := congrArg (List.take u.length) h
    rw [take_of_append_le hl, List.take_left] at h2
    exact h2
  have hx : x = u ++ x.drop u.length := by
    conv_lhs => rw [← List.take_append_drop u.length x]
    rw [h1]
  refine ⟨hx, ?_⟩
  rw [hx] at h
  rw [List.append_assoc] at h
  exact (List.append_cancel_left h).symm

/-- A successful match depends only on the matched span: it survives any
change of the text after the span. -/
theorem msgMatch_locality {a b : List Char} {r : List Char}
    (h : msgMatch (a ++ b) = some r) (hl : 9 + r.length ≤ a.length) :
    ∀ b' : List Char, msgMatch (a ++ b') = some r := by
  intro b'
  obtain ⟨hr, hw, rest, hs⟩ := msgMatch_iff.mp h
  have hsl : (msgSpan r).length ≤ a.length := by rw [msgSpan_length]; omega
  obtain ⟨ha, _⟩ := append_split hs hsl
  rw [msgSpan_length] at ha
  refine msgMatch_iff.mpr ⟨hr, hw, a.drop (9 + r.length) ++ b', ?_⟩
  rw [← List.append_assoc, ← ha]

/-- The matched span of a successful match contains only span characters, so
a match can never reach past a character like `"` or `#`. -/
theorem msgMatch_barrier {x y : List Char} {c : Char} {r : List Char}
    (h : msgMatch (x ++ c :: y) = some r) (hc : chOKb c = false) :
    9 + r.length ≤ x.length := by
  by_contra hlt
  push_neg at hlt
  obtain ⟨hr, hw, rest, hs⟩ := msgMatch_iff.mp h
  have hmem : c ∈ (x ++ c :: y).take (9 + r.length) := by
    rw [List.take_append_eq_append_take]
    refine List.mem_append.mpr (Or.inr ?_)
    have hpos : 0 < 9 + r.length - x.length := by omega
    cases hn : (9 + r.length - x.length) with
    | zero => omega
    | succ k => simp [List.take_succ_cons]
  have htake : (x ++ c :: y).take (9 + r.length) = msgSpan r := by
    rw [hs, take_of_append_le (by rw [msgSpan_length])]
    rw [← msgSpan_length (r := r), List.take_length]
  rw [htake] at hmem
  have := List.all_eq_true.mp (msgSpan_all_chOKb hw) c hmem
  rw [hc] at this
  exact absurd this (by simp)

/-- A match must start with the four characters `MSG(`. -/
theorem msgMatch_take4 {s r : List Char} (h : msgMatch s = some r) :
    s.take 4 = ['M', 'S', 'G', '('] := by
  obtain ⟨_, _, rest, hs⟩ := msgMatch_iff.mp h
  rw [hs]
  simp [msgSpan]

theorem take4_get {t : List Char} {a b c d : Char}
    (h : t.take 4 = [a, b, c, d]) :
    t[0]? = some a ∧ t[1]? = some b ∧ t[2]? = some c ∧ t[3]? = some d := by
  have ht : t = [a, b, c, d] ++ t.drop 4 := by
    conv_lhs => rw [← List.take_append_drop 4 t]
    rw [h]
  rw [ht]
  refine ⟨?_, ?_, ?_, ?_⟩ <;> simp

/-- Occurrences of the call-site pattern never overlap: no new match can
start strictly inside a matched span. -/
theorem msgMatch_no_overlap {s r : List Char} (h : msgMatch s = some r) :
    ∀ j, 1 ≤ j → j < 9 + r.length → msgMatch (s.drop j) = none := by
  intro j hj1 hj2
  obtain ⟨hr, hw, rest, hs⟩ := msgMatch_iff.mp h
  cases hm : msgMatch (s.drop j) with
  | none => rfl
  | some r2 =>
    exfalso
    obtain ⟨g0, g1, g2, g3⟩ := take4_get (msgMatch_take4 hm)
    rw [List.getElem?_drop] at g0 g1 g2 g3
    have hB : s = ['M', 'S', 'G', '(', 'M', 'S', 'G', '_'] ++
        (r ++ ')' :: rest) := by
      rw [hs]; simp [msgSpan]
    by_cases hj8 : j < 8
    · interval_cases j <;>
        (rw [hB] at g0 g1 g2 g3; simp at g0 g1 g2 g3) <;> simp_all
    · push_neg at hj8
      have hd : j - 8 ≤ r.length := by omega
      have hgB : ∀ i, 8 ≤ i → s[i]? = (r ++ ')' :: rest)[i - 8]? := by
        intro i hi
        rw [hB, List.getElem?_append]
        rw [if_neg (by simp; omega)]
        simp
      have e0 := g0; rw [hgB (j + 0) (by omega)] at e0
      have e1 := g1; rw [hgB (j + 1) (by omega)] at e1
      have e2 := g2; rw [hgB (j + 2) (by omega)] at e2
      have e3 := g3; rw [hgB (j + 3) (by omega)] at e3
      have memW : ∀ (i : Nat) (c : Char), i < r.length →
          (r ++ ')' :: rest)[i]? = some c → isWordChar c = true := by
        intro i c hi hc
        rw [List.getElem?_append, if_pos (by omega)] at hc
        exact hw c (List.getElem?_mem hc)
      have atR : ∀ (i : Nat) (c : Char), i = r.length →
          (r ++ ')' :: rest)[i]? = some c → c = ')' := by
        intro i c hi hc
        rw [List.getElem?_append, if_neg (by omega)] at hc
        rw [hi] at hc
        simp at hc
        exact hc.symm
      by_cases h3 : j + 3 - 8 < r.length
      · have := memW _ _ h3 e3
        simp [isWordChar] at this
      · by_cases h3e : j + 3 - 8 = r.length
        · have := atR _ _ h3e e3
          exact absurd this (by decide)
        · have hsplit : j - 8 = r.length ∨ j + 1 - 8 = r.length ∨
              j + 2 - 8 = r.length := by omega
          rcases hsplit with he | he | he
          · have := atR _ _ (by omega : j + 0 - 8 = r.length) e0
            exact absurd this (by decide)
          · have := atR _ _ he e1
            exact absurd this (by decide)
          · have := atR _ _ he e2
            exact absurd this (by decide)

theorem pyReplaceGas_congr (pat rep : List Char) : ∀ (s : List Char)
    (g g2 : Nat), s.length ≤ g → s.length ≤ g2 →
    pyReplaceGas pat rep g s = pyReplaceGas pat rep g2 s
  | [], g, g2, _, _ => by cases g <;> cases g2 <;> rfl
  | c :: t, 0, _, hg, _ => by simp at hg
  | c :: t, _ + 1, 0, _, hg2 => by simp at hg2
  | c :: t, g + 1, g2 + 1, hg, hg2 => by
    simp only [pyReplaceGas]
    split
    · rename_i hcond
      have hp : 0 < pat.length := List.length_pos.mpr hcond.1
      rw [pyReplaceGas_congr pat rep ((c :: t).drop pat.length) g g2
        (by simp only [List.length_drop, List.length_cons] at *; omega)
        (by simp only [List.length_drop, List.length_cons] at *; omega)]
    · rw [pyReplaceGas_congr pat rep t g g2
        (by simp only [List.length_cons] at *; omega)
        (by simp only [List.length_cons] at *; omega)]
termination_by s => s.length
decreasing_by
  all_goals simp only [List.length_drop, List.length_cons]
  all_goals omega

theorem pyReplace_cons (pat rep : List Char) (c : Char) (t : List Char) :
    pyReplace pat rep (c :: t) =
      if pat ≠ [] ∧ pat.isPrefixOf (c :: t) then
        rep ++ pyReplace pat rep ((c :: t).drop pat.length)
      else c :: pyReplace pat rep t := by
  unfold pyReplace
  rw [show (c :: t).length = t.length + 1 from rfl]
  simp only [pyReplaceGas]
  split
  · rename_i hcond
    have hp : 0 < pat.length := List.length_pos.mpr hcond.1
    rw [pyReplaceGas_congr pat rep ((c :: t).drop pat.length) t.length
      ((c :: t).drop pat.length).length
      (by simp only [List.length_drop, List.length_cons]; omega)
      (by omega)]
  · rfl

theorem finditerGas_congr (s : List Char) : ∀ (g g2 i : Nat),
    s.length - i ≤ g → s.length - i ≤ g2 →
    finditerGas s g i = finditerGas s g2 i
  | 0, 0, i, _, _ => rfl
  | 0, g2 + 1, i, hg, _ => by
    have hi : ¬i < s.length := by omega
    simp only [finditerGas, if_neg hi]
  | g + 1, 0, i, _, hg2 => by
    have hi : ¬i < s.length := by omega
    simp only [finditerGas, if_neg hi]
  | g + 1, g2 + 1, i, hg, hg2 => by
    by_cases hi : i < s.length
    · cases hm : msgMatch (s.drop i) with
      | some r =>
        simp only [finditerGas, if_pos hi, hm]
        rw [finditerGas_congr s g g2 (i + 9 + r.length) (by omega) (by omega)]
      | none =>
        simp only [finditerGas, if_pos hi, hm]
        rw [finditerGas_congr s g g2 (i + 1) (by omega) (by omega)]
    · simp only [finditerGas, if_neg hi]
termination_by g => g

theorem finditerFrom_unfold (s : List Char) (i : Nat) :
    finditerFrom s i =
      if i < s.length then
        match msgMatch (s.drop i) with
        | some r =>
          (i, msgKey r, i + 9 + r.length) :: finditerFrom s (i + 9 + r.length)
        | none => finditerFrom s (i + 1)
      else [] := by
  by_cases hi : i < s.length
  · rw [if_pos hi]
    cases hm : msgMatch (s.drop i) with
    | some r =>
      simp only [hm]
      unfold finditerFrom
      have h1 : s.length - i = (s.length - i - 1) + 1 := by omega
      rw [h1]
      simp only [finditerGas, if_pos hi, hm]
      rw [finditerGas_congr s (s.length - i - 1)
        (s.length - (i + 9 + r.length)) (i + 9 + r.length)
        (by omega) (by omega)]
    | none =>
      simp only [hm]
      unfold finditerFrom
      have h1 : s.length - i = (s.length - i - 1) + 1 := by omega
      rw [h1]
      simp only [finditerGas, if_pos hi, hm]
      rw [finditerGas_congr s (s.length - i - 1) (s.length - (i + 1))
        (i + 1) (by omega) (by omega)]
  · rw [if_neg hi]
    unfold finditerFrom
    have h0 : s.length - i = 0 := by omega
    rw [h0]
    rfl

theorem finditer_nil {s : List Char} {i : Nat} (h : s.length ≤ i) :
    finditerFrom s i = [] := by
  rw [finditerFrom_unfold, if_neg (by omega)]

/-- Structure of the head of a scan: the first listed match is at or after
the scan start, really matches there, carries the matched key and end
offset, the tail is the scan restarted at the end offset, and no position
strictly before it matches. -/
theorem finditer_cons (s : List Char) (i : Nat) (a : Nat) (k : List Char)
    (e : Nat) (rest : List (Nat × List Char × Nat))
    (h : finditerFrom s i = (a, k, e) :: rest) :
    i ≤ a ∧ a < s.length ∧ rest = finditerFrom s e ∧
      (∃ r, msgMatch (s.drop a) = some r ∧ k = msgKey r ∧
        e = a + 9 + r.length) ∧
      (∀ p, i ≤ p → p < a → msgMatch (s.drop p) = none) := by
  by_cases hi : i < s.length
  · rw [finditerFrom_unfold, if_pos hi] at h
    cases hm : msgMatch (s.drop i) with
    | some r =>
      rw [hm] at h
      obtain ⟨h1, h2⟩ := List.cons_eq_cons.mp h
      have ha : i = a := congrArg Prod.fst h1
      have hk : msgKey r = k := congrArg (fun x => x.2.1) h1
      have he : i + 9 + r.length = e := congrArg (fun x => x.2.2) h1
      refine ⟨by omega, by omega, ?_, ⟨r, ?_, ?_, ?_⟩, ?_⟩
      · rw [← h2, he]
      · rw [← ha]; exact hm
      · exact hk.symm
      · omega
      · intro p hp1 hp2; omega
    | none =>
      rw [hm] at h
      obtain ⟨g1, g2, g3, g4, g5⟩ := finditer_cons s (i + 1) a k e rest h
      refine ⟨by omega, g2, g3, g4, ?_⟩
      intro p hp1 hp2
      by_cases hpi : p = i
      · rw [hpi]; exact hm
      · exact g5 p (by omega) hp2
  · rw [finditer_nil (by omega)] at h
    exact absurd h (by simp)
termination_by s.length - i
decreasing_by omega

/-- Every listed match really matches at its start offset, with the listed
key and end offset. -/
theorem finditer_sound (s : List Char) (i : Nat) :
    ∀ x ∈ finditerFrom s i, i ≤ x.1 ∧ x.1 < s.length ∧
      ∃ r, msgMatch (s.drop x.1) = some r ∧ x.2.1 = msgKey r ∧
        x.2.2 = x.1 + 9 + r.length := by
  intro x hx
  cases hf : finditerFrom s i with
  | nil => rw [hf] at hx; simp at hx
  | cons y rest =>
    rw [hf] at hx
    obtain ⟨g1, g2, g3, g4, _⟩ := finditer_cons s i y.1 y.2.1 y.2.2 rest (by
      rw [hf])
    rcases List.mem_cons.mp hx with h | h
    · subst h; exact ⟨g1, g2, g4⟩
    · rw [g3] at h
      obtain ⟨r, hr, _, he⟩ := g4
      have he' : i < y.2.2 := by omega
      obtain ⟨w1, w2, w3⟩ := finditer_sound s y.2.2 x h
      exact ⟨by omega, w2, w3⟩
termination_by s.length - i
decreasing_by omega

/-- Every position that matches is covered by some listed match: scanning
from `i`, a match at `p ≥ i` lies inside one of the scan's spans. -/
theorem finditer_complete (s : List Char) (i p : Nat) (r : List Char)
    (hip : i ≤ p) (hm : msgMatch (s.drop p) = some r) :
    ∃ x ∈ finditerFrom s i, x.1 ≤ p ∧ p < x.2.2 := by
  have hplen : p < s.length := by
    obtain ⟨hr, hw, rest, hs⟩ := msgMatch_iff.mp hm
    by_contra hge
    push_neg at hge
    rw [List.drop_eq_nil_of_le hge] at hs
    rw [show msgSpan r ++ rest = 'M' :: ('S' :: 'G' :: '(' :: 'M' :: 'S' ::
      'G' :: '_' :: (r ++ [')'] ++ rest)) from by simp [msgSpan]] at hs
    exact absurd hs (by simp)
  have hi : i < s.length := by omega
  rw [finditerFrom_unfold, if_pos hi]
  cases hmi : msgMatch (s.drop i) with
  | some ri =>
    by_cases hpe : p < i + 9 + ri.length
    · exact ⟨(i, msgKey ri, i + 9 + ri.length), List.mem_cons_self _ _,
        hip, hpe⟩
    · push_neg at hpe
      obtain ⟨x, hx, hx2⟩ := finditer_complete s (i + 9 + ri.length) p r hpe hm
      exact ⟨x, List.mem_cons_of_mem _ hx, hx2⟩
  | none =>
    have hpi : i ≠ p := by
      intro he
      rw [he, hm] at hmi
      exact absurd hmi (by simp)
    obtain ⟨x, hx, hx2⟩ := finditer_complete s (i + 1) p r (by omega) hm
    exact ⟨x, hx, hx2⟩
termination_by s.length - i
decreasing_by
  · omega
  · omega

theorem pySlice_glue {l : List Char} {a b c : Nat} (hab : a ≤ b)
    (hbc : b ≤ c) : pySlice l a b ++ pySlice l b c = pySlice l a c := by
  unfold pySlice
  have hd : l.drop b = (l.drop a).drop (b - a) := by
    rw [List.drop_drop]
    congr 1
    omega
  rw [hd]
  have hc : c - a = (b - a) + (c - b) := by omega
  rw [hc, List.take_add]

theorem pySlice_append_drop {l : List Char} {a b : Nat} (hab : a ≤ b) :
    pySlice l a b ++ l.drop b = l.drop a := by
  unfold pySlice
  have hd : l.drop b = (l.drop a).drop (b - a) := by
    rw [List.drop_drop]
    congr 1
    omega
  rw [hd, List.take_append_drop]

/-- The rewriter output decomposes into the original gap segments
interleaved with one replacement segment per listed match. -/
theorem runMatches_decomp (m : List (List Char × List Char))
    (orig : List Char) :
    ∀ (L : List (Nat × List Char × Nat)) (pos : Nat),
      L = finditerFrom orig pos →
      (runMatches m orig L pos).transformed =
        joinGR (gapsFrom orig L pos) (L.map (repFor m orig)) := by
  intro L
  induction L with
  | nil => intro pos _; simp [runMatches, gapsFrom, joinGR]
  | cons x rest ih =>
    intro pos hL
    obtain ⟨hpos, hlen, hrest, ⟨r, hmr, hk, he⟩, _⟩ :=
      finditer_cons orig pos x.1 x.2.1 x.2.2 rest hL.symm
    have hse : x.1 ≤ x.2.2 := by omega
    have hx : x = (x.1, x.2.1, x.2.2) := rfl
    rw [hx]
    cases hg : dictGet m x.2.1 with
    | none =>
      simp only [runMatches, hg, gapsFrom, List.map_cons, joinGR]
      rw [ih x.2.2 hrest]
      simp only [repFor, hg]
      rw [← pySlice_glue hpos hse]
    | some v =>
      simp only [runMatches, hg, gapsFrom, List.map_cons, joinGR]
      rw [ih x.2.2 hrest]
      simp only [repFor, hg]

/-- The replaced counter counts exactly the occurrences whose key resolves,
and the warnings record exactly the unresolved keys, in order. -/
theorem runMatches_counts (m : List (List Char × List Char))
    (orig : List Char) :
    ∀ (L : List (Nat × List Char × Nat)) (pos : Nat),
      (runMatches m orig L pos).replaced =
        (L.filter fun x => (dictGet m x.2.1).isSome).length ∧
      (runMatches m orig L pos).warnings =
        (L.filter fun x => (dictGet m x.2.1).isNone).map fun x => x.2.1 := by
  intro L
  induction L with
  | nil => intro pos; simp [runMatches]
  | cons x rest ih =>
    intro pos
    have hx : x = (x.1, x.2.1, x.2.2) := rfl
    rw [hx]
    cases hg : dictGet m x.2.1 with
    | none =>
      constructor
      · simp [runMatches, hg, List.filter_cons, (ih x.2.2).1]
      · simp [runMatches, hg, List.filter_cons, (ih x.2.2).2]
    | some v =>
      constructor
      · simp [runMatches, hg, List.filter_cons, (ih x.2.2).1]
      · simp [runMatches, hg, List.filter_cons, (ih x.2.2).2]

theorem isPrefixOf_iff_exists : ∀ (l y : List Char),
    l.isPrefixOf y = true ↔ ∃ z, y = l ++ z := by
  intro l
  induction l with
  | nil =>
    intro y
    simp [List.isPrefixOf]
  | cons c t ih =>
    intro y
    cases y with
    | nil => simp [List.isPrefixOf]
    | cons d u =>
      simp only [List.isPrefixOf, Bool.and_eq_true, beq_iff_eq, ih u]
      constructor
      · rintro ⟨h1, z, h2⟩
        exact ⟨z, by rw [h1, h2]; rfl⟩
      · rintro ⟨z, hz⟩
        obtain ⟨h1, h2⟩ := List.cons_eq_cons.mp hz
        exact ⟨h1.symm, z, h2⟩

theorem dropWhile_append_all {w l : List Char}
    (hw : ∀ c ∈ w, isSpace c = true) :
    (w ++ l).dropWhile isSpace = l.dropWhile isSpace := by
  induction w with
  | nil => simp
  | cons c t ih =>
    simp only [List.cons_append, List.dropWhile_cons]
    rw [if_pos (hw c (List.mem_cons_self c t))]
    exact ih fun d hd => hw d (List.mem_cons_of_mem c hd)

theorem mem_takeWhile_space {l : List Char} :
    ∀ c ∈ l.takeWhile isSpace, isSpace c = true := by
  induction l with
  | nil => simp
  | cons d t ih =>
    intro c hc
    simp only [List.takeWhile_cons] at hc
    by_cases hd : isSpace d
    · rw [if_pos hd] at hc
      rcases List.mem_cons.mp hc with h | h
      · rw [h]; exact hd
      · exact ih c h
    · rw [if_neg hd] at hc; simp at hc

theorem endsFmtComma_iff (ctx : List Char) :
    endsFmtComma ctx = true ↔ SpecChainedFmt ctx := by
  constructor
  · intro h
    unfold endsFmtComma at h
    split at h
    · rename_i r2 heq
      obtain ⟨z, hz⟩ := (isPrefixOf_iff_exists _ _).mp h
      have hctx : ctx.reverse = ctx.reverse.takeWhile isSpace ++
          (',' :: r2) := by rw [← heq, List.takeWhile_append_dropWhile]
      have hr2 : r2 = r2.takeWhile isSpace ++
          (['"', 's', '%', '"'] ++ z) := by
        rw [← hz, List.takeWhile_append_dropWhile]
      have hfinal : ctx = z.reverse ++ ('"' :: '%' :: 's' :: '"' :: []) ++
          (r2.takeWhile isSpace).reverse ++ [','] ++
          (ctx.reverse.takeWhile isSpace).reverse := by
        have hcomp : ctx.reverse = ctx.reverse.takeWhile isSpace ++
            (',' :: (r2.takeWhile isSpace ++ (['"', 's', '%', '"'] ++ z))) := by
          conv_lhs => rw [hctx, hr2]
        calc ctx = ctx.reverse.reverse := (List.reverse_reverse ctx).symm
        _ = (ctx.reverse.takeWhile isSpace ++
            (',' :: (r2.takeWhile isSpace ++
              (['"', 's', '%', '"'] ++ z)))).reverse := by rw [← hcomp]
        _ = _ := by simp [List.reverse_append, List.append_assoc]
      refine ⟨z.reverse, (r2.takeWhile isSpace).reverse,
        (ctx.reverse.takeWhile isSpace).reverse, ?_, ?_, hfinal⟩
      · intro d hdm
        exact mem_takeWhile_space d (List.mem_reverse.mp hdm)
      · intro d hdm
        exact mem_takeWhile_space d (List.mem_reverse.mp hdm)
    · simp at h
  · rintro ⟨a, w1, w2, hw1, hw2, hctx⟩
    have h1 : ctx.reverse.dropWhile isSpace =
        ',' :: (w1.reverse ++ ('"' :: 's' :: '%' :: '"' :: a.reverse)) := by
      rw [hctx]
      rw [show (a ++ ('"' :: '%' :: 's' :: '"' :: []) ++ w1 ++ [','] ++
          w2).reverse = w2.reverse ++
          (',' :: (w1.reverse ++ ('"' :: 's' :: '%' :: '"' :: a.reverse)))
        from by simp [List.reverse_append]]
      rw [dropWhile_append_all
        (fun d hdm => hw2 d (List.mem_reverse.mp hdm))]
      rw [List.dropWhile_cons, if_neg (by decide)]
    unfold endsFmtComma
    rw [h1]
    show ('"' :: 's' :: '%' :: '"' :: []).isPrefixOf
      ((w1.reverse ++ ('"' :: 's' :: '%' :: '"' :: a.reverse)).dropWhile
        isSpace) = true
    rw [dropWhile_append_all (fun d hdm => hw1 d (List.mem_reverse.mp hdm))]
    rw [List.dropWhile_cons, if_neg (by decide)]
    exact (isPrefixOf_iff_exists _ _).mpr ⟨a.reverse, rfl⟩

theorem endsParenComma_iff (ctx : List Char) :
    endsParenComma ctx = true ↔ SpecChainedParen ctx := by
  constructor
  · intro h
    unfold endsParenComma at h
    split at h
    · rename_i r2 heq
      split at h
      · rename_i rest2 heq2
        have hctx : ctx.reverse = ctx.reverse.takeWhile isSpace ++
            (',' :: r2) := by rw [← heq, List.takeWhile_append_dropWhile]
        have hr2 : r2 = r2.takeWhile isSpace ++ (')' :: rest2) := by
          rw [← heq2, List.takeWhile_append_dropWhile]
        have hfinal : ctx = rest2.reverse ++ [')'] ++
            (r2.takeWhile isSpace).reverse ++ [','] ++
            (ctx.reverse.takeWhile isSpace).reverse := by
          have hcomp : ctx.reverse = ctx.reverse.takeWhile isSpace ++
              (',' :: (r2.takeWhile isSpace ++ (')' :: rest2))) := by
            conv_lhs => rw [hctx, hr2]
          calc ctx = ctx.reverse.reverse := (List.reverse_reverse ctx).symm
          _ = (ctx.reverse.takeWhile isSpace ++
              (',' :: (r2.takeWhile isSpace ++
                (')' :: rest2)))).reverse := by rw [← hcomp]
          _ = _ := by simp [List.reverse_append, List.append_assoc]
        refine ⟨rest2.reverse, (r2.takeWhile isSpace).reverse,
          (ctx.reverse.takeWhile isSpace).reverse, ?_, ?_, hfinal⟩
        · intro d hdm
          exact mem_takeWhile_space d (List.mem_reverse.mp hdm)
        · intro d hdm
          exact mem_takeWhile_space d (List.mem_reverse.mp hdm)
      · simp at h
    · simp at h
  · rintro ⟨a, w1, w2, hw1, hw2, hctx⟩
    have h1 : ctx.reverse.dropWhile isSpace =
        ',' :: (w1.reverse ++ (')' :: a.reverse)) := by
      rw [hctx]
      rw [show (a ++ [')'] ++ w1 ++ [','] ++ w2).reverse = w2.reverse ++
          (',' :: (w1.reverse ++ (')' :: a.reverse)))
        from by simp [List.reverse_append]]
      rw [dropWhile_append_all
        (fun d hdm => hw2 d (List.mem_reverse.mp hdm))]
      rw [List.dropWhile_cons, if_neg (by decide)]
    unfold endsParenComma
    rw [h1]
    show (match (w1.reverse ++ (')' :: a.reverse)).dropWhile isSpace with
      | ')' :: _ => true
      | _ => false) = true
    rw [dropWhile_append_all (fun d hdm => hw1 d (List.mem_reverse.mp hdm))]
    rw [List.dropWhile_cons, if_neg (by decide)]
    rfl

theorem msgMatch_nil : msgMatch [] = none := rfl

theorem pyReplace_nil (pat rep : List Char) : pyReplace pat rep [] = [] := rfl

theorem msgMatch_head {s r : List Char} (h : msgMatch s = some r) :
    s.head? = some 'M' := by
  obtain ⟨_, _, rest, hs⟩ := msgMatch_iff.mp h
  rw [hs]
  rfl

theorem pyContains_iff {pat : List Char} : ∀ (s : List Char),
    pyContains pat s = true ↔ ∃ j z, s.drop j = pat ++ z := by
  intro s
  induction s with
  | nil =>
    simp only [pyContains, List.isEmpty_iff, List.drop_nil]
    constructor
    · intro h
      exact ⟨0, [], by simp [h]⟩
    · rintro ⟨j, z, hz⟩
      rcases List.append_eq_nil.mp hz.symm with ⟨h1, _⟩
      exact h1
  | cons c t ih =>
    simp only [pyContains, Bool.or_eq_true, ih]
    constructor
    · rintro (h | ⟨j, z, hz⟩)
      · obtain ⟨z, hz⟩ := (isPrefixOf_iff_exists _ _).mp h
        exact ⟨0, z, by simpa using hz⟩
      · exact ⟨j + 1, z, by simpa using hz⟩
    · rintro ⟨j, z, hz⟩
      cases j with
      | zero =>
        left
        exact (isPrefixOf_iff_exists _ _).mpr ⟨z, by simpa using hz⟩
      | succ j2 =>
        right
        exact ⟨j2, z, by simpa using hz⟩

/-- First-occurrence decomposition of `s.replace`: either the pattern never
occurs and the buffer is returned unchanged, or the output splits at some
occurrence into copied text, the replacement, and the replacement of the
remainder. -/
theorem pyReplace_decomp : ∀ (t : List Char),
    pyReplace includePat includeRep t = t ∨
    ∃ q z, t.drop q = includePat ++ z ∧
      pyReplace includePat includeRep t =
        t.take q ++ includeRep ++
          pyReplace includePat includeRep (t.drop (q + 21)) := by
  intro t
  match t with
  | [] => left; exact pyReplace_nil _ _
  | c :: t2 =>
    rw [pyReplace_cons]
    split
    · rename_i hcond
      right
      obtain ⟨z, hz⟩ := (isPrefixOf_iff_exists _ _).mp hcond.2
      refine ⟨0, z, by simpa using hz, ?_⟩
      simp only [List.take_zero, List.nil_append, List.drop_zero]
      rw [show includePat.length = 21 from rfl]
    · rcases pyReplace_decomp t2 with h | ⟨q, z, hz, hd⟩
      · left; rw [h]
      · right
        refine ⟨q + 1, z, by simpa using hz, ?_⟩
        rw [hd]
        have hq : q + 1 + 21 = (q + 21) + 1 := by omega
        rw [hq, List.drop_succ_cons, List.take_succ_cons]
        simp [List.cons_append, List.append_assoc]
termination_by t => t.length
decreasing_by simp

/-- If a proper tail of the include pattern is a prefix of a replaced
buffer, it was already a prefix of the original buffer: the replacement
text cannot fabricate it, since the pattern's only `#` is its first byte. -/
theorem pyReplace_tail_pre : ∀ (d : Nat), 1 ≤ d → ∀ (t z : List Char),
    pyReplace includePat includeRep t = includePat.drop d ++ z →
    ∃ z2, t = includePat.drop d ++ z2 := by
  intro d h1 t z h
  by_cases hd : 21 ≤ d
  · refine ⟨t, ?_⟩
    rw [List.drop_eq_nil_of_le (by rw [show includePat.length = 21 from rfl]; omega)]
    rfl
  · push_neg at hd
    match t with
    | [] =>
      rw [pyReplace_nil] at h
      have hlen := congrArg List.length h
      simp only [List.length_nil, List.length_append, List.length_drop] at hlen
      rw [show includePat.length = 21 from rfl] at hlen
      omega
    | c :: t2 =>
      rw [pyReplace_cons] at h
      split at h
      · exfalso
        have hh := congrArg List.head? h
        rw [show (includeRep ++
          pyReplace includePat includeRep ((c :: t2).drop includePat.length)).head? =
            some '#' from rfl] at hh
        cases hx : (includePat.drop d).head? with
        | none =>
          rw [List.head?_eq_none_iff] at hx
          have hlen := congrArg List.length hx
          simp only [List.length_drop, List.length_nil] at hlen
          rw [show includePat.length = 21 from rfl] at hlen
          omega
        | some a =>
          have ha : a ≠ '#' := by
            have hfact : ∀ e, e < 21 → 1 ≤ e →
                ¬((includePat.drop e).head? = some '#') := by decide
            intro hcontra
            exact hfact d hd h1 (by rw [hx, hcontra])
          obtain ⟨l2, hl2⟩ := List.head?_eq_some_iff.mp hx
          rw [hl2] at hh
          simp only [List.cons_append, List.head?_cons, Option.some.injEq] at hh
          exact ha hh.symm
      · have hdrop : includePat.drop d = includePat[d] :: includePat.drop (d + 1) := by
          apply List.drop_eq_getElem_cons
        rw [hdrop, List.cons_append] at h
        obtain ⟨hc, ht⟩ := List.cons_eq_cons.mp h
        obtain ⟨z2, hz2⟩ := pyReplace_tail_pre (d + 1) (by omega) t2 z ht
        refine ⟨z2, ?_⟩
        rw [hdrop, List.cons_append, hc, hz2]
termination_by d => 21 - d
decreasing_by omega

/-- After `s.replace`, no occurrence of the include pattern remains
anywhere in the output buffer. -/
theorem pyReplace_no_pat : ∀ (t : List Char) (j : Nat) (z : List Char),
    (pyReplace includePat includeRep t).drop j ≠ includePat ++ z := by
  intro t j z h
  match t with
  | [] =>
    rw [pyReplace_nil, List.drop_nil] at h
    have := congrArg List.length h
    simp only [List.length_nil, List.length_append] at this
    rw [show includePat.length = 21 from rfl] at this
    omega
  | c :: t2 =>
    rw [pyReplace_cons] at h
    split at h
    · rename_i hcond
      by_cases hj : j < 17
      · rw [List.drop_append_eq_append_drop] at h
        rw [show includeRep.length = 17 from rfl] at h
        rw [show j - 17 = 0 from by omega, List.drop_zero] at h
        have hl : (includeRep.drop j).length ≤ (includePat ++ z).length := by
          rw [← h]
          simp
        obtain ⟨h1, _⟩ := append_split h.symm (by
          simp only [List.length_drop, List.length_append] at hl ⊢
          rw [show includeRep.length = 17 from rfl] at hl ⊢
          rw [show includePat.length = 21 from rfl]
          omega)
        have hbad : ∀ e, e < 17 →
            includePat ≠ includeRep.drop e ++
              includePat.drop (includeRep.drop e).length := by decide
        exact hbad j hj h1
      · push_neg at hj
        rw [List.drop_append_eq_append_drop] at h
        rw [show includeRep.length = 17 from rfl] at h
        rw [List.drop_eq_nil_of_le (by
          rw [show includeRep.length = 17 from rfl]; omega),
          List.nil_append] at h
        exact pyReplace_no_pat ((c :: t2).drop includePat.length) (j - 17) z h
    · rename_i hcond
      cases j with
      | succ j2 =>
        rw [List.drop_succ_cons] at h
        exact pyReplace_no_pat t2 j2 z h
      | zero =>
        rw [List.drop_zero] at h
        have hpat : includePat = '#' :: includePat.drop 1 := by decide
        rw [hpat, List.cons_append] at h
        obtain ⟨hc, ht⟩ := List.cons_eq_cons.mp h
        obtain ⟨z2, hz2⟩ := pyReplace_tail_pre 1 (by omega) t2 z ht
        apply hcond
        refine ⟨by decide, ?_⟩
        apply (isPrefixOf_iff_exists _ _).mpr
        refine ⟨z2, ?_⟩
        rw [hpat, List.cons_append, hc, hz2]
termination_by t => t.length
decreasing_by
  all_goals have h21 : includePat.length = 21 := rfl
  all_goals simp only [List.length_drop, List.length_cons]
  all_goals omega

/-- Every call-site match found in a buffer after the include substitution
was already present in the buffer before the substitution (the replacement
text can neither contain nor help form a call-site occurrence). -/
theorem pyReplace_msg_corr : ∀ (t : List Char) (j : Nat) (r : List Char),
    msgMatch ((pyReplace includePat includeRep t).drop j) = some r →
    ∃ i, msgMatch (t.drop i) = some r := by
  intro t j r h
  match t with
  | [] =>
    rw [pyReplace_nil, List.drop_nil, msgMatch_nil] at h
    exact absurd h (by simp)
  | c :: t2 =>
    rw [pyReplace_cons] at h
    split at h
    · rename_i hcond
      by_cases hj : j < 17
      · exfalso
        rw [List.drop_append_eq_append_drop] at h
        rw [show includeRep.length = 17 from rfl] at h
        rw [show j - 17 = 0 from by omega, List.drop_zero] at h
        have hhd := msgMatch_head h
        cases hx : (includeRep.drop j).head? with
        | none =>
          rw [List.head?_eq_none_iff] at hx
          have hlen := congrArg List.length hx
          simp only [List.length_drop, List.length_nil] at hlen
          rw [show includeRep.length = 17 from rfl] at hlen
          omega
        | some a =>
          have ha : a ≠ 'M' := by
            have hfact : ∀ e, e < 17 →
                ¬((includeRep.drop e).head? = some 'M') := by decide
            intro hcontra
            exact hfact j hj (by rw [hx, hcontra])
          obtain ⟨l2, hl2⟩ := List.head?_eq_some_iff.mp hx
          rw [hl2, List.cons_append, List.head?_cons] at hhd
          exact ha (Option.some.injEq .. ▸ hhd.symm ▸ rfl)
      · push_neg at hj
        rw [List.drop_append_eq_append_drop] at h
        rw [show includeRep.length = 17 from rfl] at h
        rw [List.drop_eq_nil_of_le (by
          rw [show includeRep.length = 17 from rfl]; omega),
          List.nil_append] at h
        obtain ⟨i, hi⟩ :=
          pyReplace_msg_corr ((c :: t2).drop includePat.length) (j - 17) r h
        rw [List.drop_drop] at hi
        exact ⟨includePat.length + i, hi⟩
    · rename_i hcond
      cases j with
      | succ j2 =>
        rw [List.drop_succ_cons] at h
        obtain ⟨i, hi⟩ := pyReplace_msg_corr t2 j2 r h
        refine ⟨i + 1, ?_⟩
        rw [show (c :: t2).drop (i + 1) = t2.drop i from by
          rw [List.drop_succ_cons]]
        exact hi
      | zero =>
        rw [List.drop_zero] at h
        rcases pyReplace_decomp t2 with hid | ⟨q, z, hz, hd⟩
        · rw [hid] at h
          exact ⟨0, by rw [List.drop_zero]; exact h⟩
        · rw [hd] at h
          have hq : q < t2.length := by
            by_contra hge
            push_neg at hge
            rw [List.drop_eq_nil_of_le hge] at hz
            have := congrArg List.length hz
            simp only [List.length_nil, List.length_append] at this
            rw [show includePat.length = 21 from rfl] at this
            omega
          have hshape : c :: (t2.take q ++ includeRep ++
              pyReplace includePat includeRep (t2.drop (q + 21))) =
              (c :: t2.take q) ++ (includeRep ++
                pyReplace includePat includeRep (t2.drop (q + 21))) := by
            simp [List.cons_append, List.append_assoc]
          rw [hshape] at h
          obtain ⟨hr, hw, rest, hs⟩ := msgMatch_iff.mp h
          have hlen_take : (c :: t2.take q).length = 1 + q := by
            simp only [List.length_cons, List.length_take]
            omega
          by_cases hle : 9 + r.length ≤ 1 + q
          · obtain ⟨h1, _⟩ := append_split hs (by
              rw [msgSpan_length, hlen_take]; omega)
            refine ⟨0, ?_⟩
            rw [List.drop_zero]
            apply msgMatch_iff.mpr
            refine ⟨hr, hw,
              (c :: t2.take q).drop (msgSpan r).length ++ t2.drop q, ?_⟩
            have hct : c :: t2 = (c :: t2.take q) ++ t2.drop q := by
              rw [show (c :: t2.take q) ++ t2.drop q =
                c :: (t2.take q ++ t2.drop q) from by
                  rw [List.cons_append]]
              rw [List.take_append_drop]
            rw [hct]
            conv_lhs => rw [h1]
            rw [List.append_assoc]
          · exfalso
            push_neg at hle
            have hget := congrArg (fun l => l[1 + q]?) hs
            simp only [] at hget
            rw [List.getElem?_append, if_neg (by rw [hlen_take]; omega)] at hget
            rw [hlen_take, show 1 + q - (1 + q) = 0 from by omega] at hget
            rw [show (includeRep ++ pyReplace includePat includeRep
              (t2.drop (q + 21)))[0]? = some '#' from rfl] at hget
            rw [List.getElem?_append,
              if_pos (by rw [msgSpan_length]; omega)] at hget
            have hmem : '#' ∈ msgSpan r := List.getElem?_mem hget.symm
            have := List.all_eq_true.mp (msgSpan_all_chOKb hw) '#' hmem
            exact absurd this (by decide)
termination_by t => t.length
decreasing_by
  all_goals have h21 : includePat.length = 21 := rfl
  all_goals simp only [List.length_drop, List.length_cons]
  all_goals omega

theorem msgMatch_le_len {orig : List Char} {a : Nat} {r : List Char}
    (h : msgMatch (orig.drop a) = some r) :
    a + 9 + r.length ≤ orig.length := by
  obtain ⟨_, _, rest, hs⟩ := msgMatch_iff.mp h
  have hlen := congrArg List.length hs
  simp only [List.length_drop, List.length_append, msgSpan_length] at hlen
  by_cases ha : a ≤ orig.length
  · omega
  · push_neg at ha
    rw [List.drop_eq_nil_of_le (by omega)] at hs
    have := congrArg List.length hs
    simp only [List.length_nil, List.length_append, msgSpan_length] at this
    omega

theorem choose_macro_cases (v ctx : List Char) :
    choose_macro v ctx = chars "LA_F" ∨ choose_macro v ctx = chars "LA_S" ∨
      choose_macro v ctx = chars "LA_W" := by
  unfold choose_macro
  split
  · left; rfl
  · split
    · right; left; rfl
    · split
      · right; left; rfl
      · right; right; rfl

theorem blockOf_length {mac v : List Char}
    (hmac : mac = chars "LA_F" ∨ mac = chars "LA_S" ∨ mac = chars "LA_W") :
    (blockOf mac v).length = 11 + v.length := by
  rcases hmac with h | h | h
  all_goals subst h
  all_goals simp only [blockOf, List.length_append, List.length_cons,
    List.length_nil]
  · have h4 : (chars "LA_F").length = 4 := by decide
    omega
  · have h4 : (chars "LA_S").length = 4 := by decide
    omega
  · have h4 : (chars "LA_W").length = 4 := by decide
    omega

theorem msgSpan_decomp (r : List Char) :
    msgSpan r = ['M', 'S', 'G', '(', 'M', 'S', 'G', '_'] ++ (r ++ [')']) := rfl

theorem msgSpan_get_lit {r : List Char} {i : Nat} (hi : i < 8) :
    (msgSpan r)[i]? = ['M', 'S', 'G', '(', 'M', 'S', 'G', '_'][i]? := by
  rw [msgSpan_decomp, List.getElem?_append, if_pos (by simp; omega)]

theorem msgSpan_get_word {r : List Char} {i : Nat} {c : Char} (h8 : 8 ≤ i)
    (hi : i < 8 + r.length) (hc : (msgSpan r)[i]? = some c) : c ∈ r := by
  rw [msgSpan_decomp, List.getElem?_append, if_neg (by simp; omega)] at hc
  rw [List.getElem?_append, if_pos (by simp; omega)] at hc
  exact List.getElem?_mem hc

theorem msgSpan_get_close (r : List Char) :
    (msgSpan r)[8 + r.length]? = some ')' := by
  rw [msgSpan_decomp, List.getElem?_append, if_neg (by simp)]
  rw [List.getElem?_append, if_neg (by simp)]
  simp

theorem blockOf_get {mac v : List Char}
    (hmac : mac = chars "LA_F" ∨ mac = chars "LA_S" ∨ mac = chars "LA_W") :
    (blockOf mac v)[0]? = some 'L' ∧ (blockOf mac v)[1]? = some 'A' ∧
    (blockOf mac v)[2]? = some '_' ∧
    (∃ x, (blockOf mac v)[3]? = some x ∧ (x = 'F' ∨ x = 'S' ∨ x = 'W')) ∧
    (blockOf mac v)[4]? = some '(' := by
  rcases hmac with h | h | h
  all_goals subst h
  · exact ⟨rfl, rfl, rfl, ⟨'F', rfl, Or.inl rfl⟩, rfl⟩
  · exact ⟨rfl, rfl, rfl, ⟨'S', rfl, Or.inr (Or.inl rfl)⟩, rfl⟩
  · exact ⟨rfl, rfl, rfl, ⟨'W', rfl, Or.inr (Or.inr rfl)⟩, rfl⟩

/-- A call-site match in `a ++ emitted-macro-call ++ C` can never extend
into the emitted macro call: the block's opening `LA_?(` cannot be part of
any matched span. -/
theorem match_stops_before_block {a mac v C r : List Char}
    (hmac : mac = chars "LA_F" ∨ mac = chars "LA_S" ∨ mac = chars "LA_W")
    (h : msgMatch (a ++ (blockOf mac v ++ C)) = some r) :
    9 + r.length ≤ a.length := by
  by_contra hlt
  push_neg at hlt
  obtain ⟨hr, hw, rest, hs⟩ := msgMatch_iff.mp h
  obtain ⟨b0, b1, b2, ⟨x, b3, hx⟩, b4⟩ := blockOf_get (v := v) hmac
  have hg : ∀ t ch, (blockOf mac v)[t]? = some ch →
      (a ++ (blockOf mac v ++ C))[a.length + t]? = some ch := by
    intro t ch hch
    have ht : t < (blockOf mac v).length := by
      by_contra hge
      push_neg at hge
      rw [List.getElem?_eq_none hge] at hch
      exact absurd hch (by simp)
    rw [List.getElem?_append, if_neg (by omega)]
    rw [show a.length + t - a.length = t from by omega]
    rw [List.getElem?_append, if_pos ht]
    exact hch
  have hspan : ∀ n ch, n < 9 + r.length →
      (a ++ (blockOf mac v ++ C))[n]? = some ch →
      (msgSpan r)[n]? = some ch := by
    intro n ch hn hc
    rw [hs] at hc
    rw [List.getElem?_append, if_pos (by rw [msgSpan_length]; omega)] at hc
    exact hc
  have c0 := hspan a.length 'L' (by omega)
    (by rw [show a.length = a.length + 0 from by omega]; exact hg 0 'L' b0)
  have h8 : 8 ≤ a.length := by
    by_contra h8
    push_neg at h8
    rw [msgSpan_get_lit h8] at c0
    have : ∀ i, i < 8 →
        ¬(['M', 'S', 'G', '(', 'M', 'S', 'G', '_'][i]? = some 'L') := by
      decide
    exact this a.length h8 c0
  have hne0 : a.length ≠ 8 + r.length := by
    intro heq
    rw [heq, msgSpan_get_close] at c0
    simp at c0
  have hlt0 : a.length < 8 + r.length := by omega
  have c1 := hspan (a.length + 1) 'A' (by omega) (hg 1 'A' b1)
  have hlt1 : a.length + 1 < 8 + r.length := by
    rcases Nat.lt_or_ge (a.length + 1) (8 + r.length) with h | h
    · exact h
    · exfalso
      have heq : a.length + 1 = 8 + r.length := by omega
      rw [heq, msgSpan_get_close] at c1
      simp at c1
  have c2 := hspan (a.length + 2) '_' (by omega) (hg 2 '_' b2)
  have hlt2 : a.length + 2 < 8 + r.length := by
    rcases Nat.lt_or_ge (a.length + 2) (8 + r.length) with h | h
    · exact h
    · exfalso
      have heq : a.length + 2 = 8 + r.length := by omega
      rw [heq, msgSpan_get_close] at c2
      simp at c2
  have c3 := hspan (a.length + 3) x (by omega) (hg 3 x b3)
  have hlt3 : a.length + 3 < 8 + r.length := by
    rcases Nat.lt_or_ge (a.length + 3) (8 + r.length) with h | h
    · exact h
    · exfalso
      have heq : a.length + 3 = 8 + r.length := by omega
      rw [heq, msgSpan_get_close] at c3
      rcases hx with hx | hx | hx <;> (subst hx; simp at c3)
  have c4 := hspan (a.length + 4) '(' (by omega) (hg 4 '(' b4)
  rcases Nat.lt_or_ge (a.length + 4) (8 + r.length) with h4 | h4
  · have hmem := msgSpan_get_word (by omega) h4 c4
    have := hw '(' hmem
    exact absurd this (by decide)
  · have heq : a.length + 4 = 8 + r.length := by omega
    rw [heq, msgSpan_get_close] at c4
    simp at c4

/-- No call-site match can start inside an emitted macro call (given that
the substituted value itself contains no call-site occurrence). -/
theorem block_no_match {mac v C : List Char}
    (hmac : mac = chars "LA_F" ∨ mac = chars "LA_S" ∨ mac = chars "LA_W")
    (hv : ∀ q, msgMatch (v.drop q) = none)
    (j : Nat) (hj : j < (blockOf mac v).length) :
    msgMatch ((blockOf mac v ++ C).drop j) = none := by
  have hx : ∃ x, (x = 'F' ∨ x = 'S' ∨ x = 'W') ∧
      blockOf mac v ++ C = ['L', 'A', '_', x, '(', '"'] ++
        (v ++ ('"' :: ',' :: ' ' :: '0' :: ')' :: C)) := by
    rcases hmac with h | h | h
    · refine ⟨'F', Or.inl rfl, ?_⟩
      subst h
      rw [show chars "LA_F" = 'L' :: 'A' :: '_' :: 'F' :: [] from rfl]
      simp [blockOf, List.append_assoc]
    · refine ⟨'S', Or.inr (Or.inl rfl), ?_⟩
      subst h
      rw [show chars "LA_S" = 'L' :: 'A' :: '_' :: 'S' :: [] from rfl]
      simp [blockOf, List.append_assoc]
    · refine ⟨'W', Or.inr (Or.inr rfl), ?_⟩
      subst h
      rw [show chars "LA_W" = 'L' :: 'A' :: '_' :: 'W' :: [] from rfl]
      simp [blockOf, List.append_assoc]
  obtain ⟨x, hxv, hshape⟩ := hx
  rw [blockOf_length hmac] at hj
  cases hm : msgMatch ((blockOf mac v ++ C).drop j) with
  | none => rfl
  | some r =>
    exfalso
    rw [hshape] at hm
    by_cases hj6 : j < 6
    · have hhd := msgMatch_head hm
      interval_cases j <;>
        (simp only [List.cons_append, List.drop_succ_cons, List.drop_zero,
          List.head?_cons] at hhd) <;>
        (rcases hxv with h | h | h <;> simp_all)
    · push_neg at hj6
      rw [List.drop_append_eq_append_drop] at hm
      rw [show (['L', 'A', '_', x, '(', '"'] : List Char).length = 6
        from rfl] at hm
      rw [List.drop_eq_nil_of_le (by simp; omega), List.nil_append] at hm
      by_cases hqv : j - 6 < v.length
      · rw [List.drop_append_eq_append_drop] at hm
        rw [show j - 6 - v.length = 0 from by omega, List.drop_zero] at hm
        have hbar := msgMatch_barrier hm (by decide)
        have := msgMatch_locality hm hbar []
        rw [List.append_nil] at this
        exact absurd this (by rw [hv (j - 6)]; simp)
      · push_neg at hqv
        rw [List.drop_append_eq_append_drop] at hm
        rw [List.drop_eq_nil_of_le (by omega), List.nil_append] at hm
        have hp : j - 6 - v.length < 5 := by omega
        have hhd := msgMatch_head hm
        set p := j - 6 - v.length with hpdef
        interval_cases p <;> simp at hhd

/-- Shape of the rewriter output scanned from `pos`: either it is the
untouched original tail (and every original match at or after `pos` has an
unresolved key), or it starts with copied original text up to the first
resolved occurrence, followed by an emitted macro call and the rewriter
output for the rest — with every original match before that occurrence
unresolved. -/
theorem runMatches_shape (m : List (List Char × List Char))
    (orig : List Char) : ∀ pos : Nat,
    ((runMatches m orig (finditerFrom orig pos) pos).transformed =
        orig.drop pos ∧
      ∀ p rp, pos ≤ p → msgMatch (orig.drop p) = some rp →
        dictGet m (msgKey rp) = none) ∨
    (∃ s2 e2 v mac,
      pos ≤ s2 ∧ s2 + 10 ≤ e2 ∧ e2 ≤ orig.length ∧
      (mac = chars "LA_F" ∨ mac = chars "LA_S" ∨ mac = chars "LA_W") ∧
      (∃ k2, dictGet m k2 = some v) ∧
      (runMatches m orig (finditerFrom orig pos) pos).transformed =
        pySlice orig pos s2 ++ (blockOf mac v ++
          (runMatches m orig (finditerFrom orig e2) e2).transformed) ∧
      ∀ p rp, pos ≤ p → p < s2 → msgMatch (orig.drop p) = some rp →
        dictGet m (msgKey rp) = none) := by
  intro pos
  cases hf : finditerFrom orig pos with
  | nil =>
    left
    constructor
    · simp [runMatches]
    · intro p rp hp hm
      obtain ⟨x, hx, _⟩ := finditer_complete orig pos p rp hp hm
      rw [hf] at hx
      simp at hx
  | cons y rest =>
    obtain ⟨hpos, hlen, hrest, ⟨r0, hm0, hk0, he0⟩, hgap⟩ :=
      finditer_cons orig pos y.1 y.2.1 y.2.2 rest (by rw [hf])
    have hin : ∀ p rp, pos ≤ p → p < y.2.2 →
        msgMatch (orig.drop p) = some rp → p = y.1 ∧ rp = r0 := by
      intro p rp hp1 hp2 hmp
      by_cases hps : p < y.1
      · rw [hgap p hp1 hps] at hmp
        exact absurd hmp (by simp)
      · push_neg at hps
        by_cases hpe : p = y.1
        · subst hpe
          rw [hm0] at hmp
          exact ⟨rfl, (Option.some.inj hmp).symm⟩
        · exfalso
          have h1 : 1 ≤ p - y.1 := by omega
          have h2 : p - y.1 < 9 + r0.length := by omega
          have hno := msgMatch_no_overlap hm0 (p - y.1) h1 h2
          rw [List.drop_drop, show y.1 + (p - y.1) = p from by omega] at hno
          rw [hno] at hmp
          exact absurd hmp (by simp)
    have he_len : y.2.2 ≤ orig.length := by
      rw [he0]
      exact msgMatch_le_len hm0
    cases hg : dictGet m y.2.1 with
    | none =>
      have hout : (runMatches m orig (y :: rest) pos).transformed =
          pySlice orig pos y.2.2 ++
            (runMatches m orig (finditerFrom orig y.2.2) y.2.2).transformed := by
        rw [show y = (y.1, y.2.1, y.2.2) from rfl]
        simp only [runMatches, hg]
        rw [hrest]
      rcases runMatches_shape m orig y.2.2 with ⟨ih1, ih2⟩ |
        ⟨s2, e2, v, mac, hps2, hse2, hel2, hmac2, hex2, hout2, hfact2⟩
      · left
        constructor
        · rw [hout, ih1, pySlice_append_drop (by omega)]
        · intro p rp hp hmp
          by_cases hpe : p < y.2.2
          · obtain ⟨hp1, hp2⟩ := hin p rp hp hpe hmp
            rw [hp2, ← hk0]
            exact hg
          · push_neg at hpe
            exact ih2 p rp hpe hmp
      · right
        refine ⟨s2, e2, v, mac, by omega, hse2, hel2, hmac2, hex2, ?_, ?_⟩
        · rw [hout, hout2, ← List.append_assoc, pySlice_glue (by omega) hps2]
        · intro p rp hp hpls2 hmp
          by_cases hpe : p < y.2.2
          · obtain ⟨hp1, hp2⟩ := hin p rp hp hpe hmp
            rw [hp2, ← hk0]
            exact hg
          · push_neg at hpe
            exact hfact2 p rp hpe hpls2 hmp
    | some v =>
      right
      have hout : (runMatches m orig (y :: rest) pos).transformed =
          pySlice orig pos y.1 ++
            (blockOf ( choose_macro v (pySlice orig (y.1 - 40) y.1)) v ++
              (runMatches m orig (finditerFrom orig y.2.2) y.2.2).transformed) := by
        rw [show y = (y.1, y.2.1, y.2.2) from rfl]
        simp only [runMatches, hg]
        rw [hrest]
        simp [List.append_assoc]
      have hr0ne : r0 ≠ [] := (msgMatch_iff.mp hm0).1
      have hr0len : 1 ≤ r0.length := List.length_pos.mpr hr0ne
      refine ⟨y.1, y.2.2, v, choose_macro v (pySlice orig (y.1 - 40) y.1),
        hpos, by omega, he_len, choose_macro_cases v _, ⟨y.2.1, hg⟩,
        hout, ?_⟩
      intro p rp hp hpls hmp
      rw [hgap p hp hpls] at hmp
      exact absurd hmp (by simp)
termination_by pos => orig.length - pos
decreasing_by omega

/-- After the span-rewriting phase, every call-site occurrence remaining
anywhere in the output has a key that the catalog does not resolve
(provided no catalog value itself contains a call-site occurrence). -/
theorem spanOut_unresolved (m : List (List Char × List Char))
    (orig : List Char)
    (hcat : ∀ k2 v, dictGet m k2 = some v →
      ∀ q, msgMatch (v.drop q) = none) :
    ∀ (pos j : Nat) (r : List Char),
      msgMatch (((runMatches m orig (finditerFrom orig pos)
        pos).transformed).drop j) = some r →
      dictGet m (msgKey r) = none := by
  intro pos j r h
  rcases runMatches_shape m orig pos with ⟨hout, hfact⟩ |
    ⟨s2, e2, v, mac, hps, hse, hel, hmac, ⟨k2, hk2⟩, hout, hfact⟩
  · rw [hout, List.drop_drop] at h
    exact hfact (pos + j) r (by omega) h
  · rw [hout] at h
    have hAlen : (pySlice orig pos s2).length = s2 - pos := by
      simp only [pySlice, List.length_take, List.length_drop]
      omega
    rw [List.drop_append_eq_append_drop, hAlen] at h
    by_cases hjA : j < s2 - pos
    · rw [show j - (s2 - pos) = 0 from by omega, List.drop_zero] at h
      have hstop := match_stops_before_block hmac h
      have hloc := msgMatch_locality h hstop (orig.drop s2)
      have htrans : (pySlice orig pos s2).drop j ++ orig.drop s2 =
          orig.drop (pos + j) := by
        rw [pySlice, List.drop_take, List.drop_drop]
        have hds : orig.drop s2 = (orig.drop (pos + j)).drop
            (s2 - pos - j) := by
          rw [List.drop_drop]
          congr 1
          omega
        rw [hds, List.take_append_drop]
      rw [htrans] at hloc
      exact hfact (pos + j) r (by omega) (by omega) hloc
    · push_neg at hjA
      rw [List.drop_eq_nil_of_le (by rw [hAlen]; omega), List.nil_append] at h
      by_cases hjB : j - (s2 - pos) < (blockOf mac v).length
      · have hnone := block_no_match
          (C := (runMatches m orig (finditerFrom orig e2) e2).transformed)
          hmac (hcat k2 v hk2) (j - (s2 - pos)) hjB
        rw [hnone] at h
        exact absurd h (by simp)
      · push_neg at hjB
        rw [List.drop_append_eq_append_drop,
          List.drop_eq_nil_of_le hjB, List.nil_append] at h
        exact spanOut_unresolved m orig hcat e2
          (j - (s2 - pos) - (blockOf mac v).length) r h
termination_by pos => orig.length - pos
decreasing_by omega

theorem noOccB_spec {v : List Char} (h : noOccB v = true) :
    ∀ q, msgMatch (v.drop q) = none := by
  intro q
  by_cases hq : q < v.length
  · exact of_decide_eq_true h q hq
  · rw [List.drop_eq_nil_of_le (by omega)]
    exact msgMatch_nil

theorem dict_noOcc : ∀ (m : List (List Char × List Char)),
    (m.all fun kv => noOccB kv.2) = true →
    ∀ k v, dictGet m k = some v → ∀ q, msgMatch (v.drop q) = none := by
  intro m
  induction m with
  | nil => intro _ k v hv; simp [dictGet] at hv
  | cons kv t ih =>
    intro hall k v hv
    rw [List.all_cons, Bool.and_eq_true] at hall
    rw [show kv = (kv.1, kv.2) from rfl, dictGet] at hv
    by_cases hk : kv.1 = k
    · rw [if_pos hk] at hv
      have : v = kv.2 := by injection hv with h2; exact h2.symm
      rw [this]
      exact noOccB_spec hall.1
    · rw [if_neg hk] at hv
      exact ih hall.2 k v hv

/-- When every listed match has an unresolved key, the rewriter copies the
buffer through unchanged and counts zero replacements. -/
theorem runMatches_skip_id (m : List (List Char × List Char))
    (orig : List Char) : ∀ pos : Nat,
    (∀ x ∈ finditerFrom orig pos, dictGet m x.2.1 = none) →
    (runMatches m orig (finditerFrom orig pos) pos).transformed =
        orig.drop pos ∧
      (runMatches m orig (finditerFrom orig pos) pos).replaced = 0 := by
  intro pos hall
  cases hf : finditerFrom orig pos with
  | nil => simp [runMatches]
  | cons y rest =>
    obtain ⟨hpos, hlen, hrest, ⟨r0, hm0, hk0, he0⟩, _⟩ :=
      finditer_cons orig pos y.1 y.2.1 y.2.2 rest (by rw [hf])
    have hg : dictGet m y.2.1 = none := by
      apply hall
      rw [hf]
      exact List.mem_cons_self _ _
    have hall2 : ∀ x ∈ finditerFrom orig y.2.2, dictGet m x.2.1 = none := by
      intro x hx
      rw [← hrest] at hx
      apply hall
      rw [hf]
      exact List.mem_cons_of_mem _ hx
    have he_len : y.2.2 ≤ orig.length := by
      rw [he0]
      exact msgMatch_le_len hm0
    obtain ⟨ih1, ih2⟩ := runMatches_skip_id m orig y.2.2 hall2
    rw [← hrest] at ih1 ih2
    constructor
    · rw [show y = (y.1, y.2.1, y.2.2) from rfl]
      simp only [runMatches, hg]
      rw [ih1, pySlice_append_drop (by omega)]
    · rw [show y = (y.1, y.2.1, y.2.2) from rfl]
      simp only [runMatches, hg]
      exact ih2
termination_by pos => orig.length - pos
decreasing_by omega

theorem transform_buf (m : List (List Char × List Char)) (orig : List Char) :
    (transform m orig).transformed =
      (if pyContains includePat
          ((runMatches m orig (finditerFrom orig 0) 0).transformed) then
        pyReplace includePat includeRep
          ((runMatches m orig (finditerFrom orig 0) 0).transformed)
      else (runMatches m orig (finditerFrom orig 0) 0).transformed) := rfl

theorem transform_rep (m : List (List Char × List Char)) (orig : List Char) :
    (transform m orig).replaced =
      (runMatches m orig (finditerFrom orig 0) 0).replaced := rfl

theorem transform_warn (m : List (List Char × List Char)) (orig : List Char) :
    (transform m orig).warnings =
      (runMatches m orig (finditerFrom orig 0) 0).warnings := rfl

/-- The final buffer of `transform_file` never contains the include
directive: it was either substituted away or never present. -/
theorem transform_no_pat (m : List (List Char × List Char))
    (orig : List Char) :
    pyContains includePat (transform m orig).transformed = false := by
  rw [transform_buf]
  by_cases hc : pyContains includePat
      ((runMatches m orig (finditerFrom orig 0) 0).transformed) = true
  · rw [if_pos hc]
    cases hcon : pyContains includePat (pyReplace includePat includeRep
        ((runMatches m orig (finditerFrom orig 0) 0).transformed)) with
    | false => rfl
    | true =>
      exfalso
      obtain ⟨j, z, hjz⟩ := (pyContains_iff _).mp hcon
      exact pyReplace_no_pat _ j z hjz
  · rw [if_neg hc]
    exact Bool.not_eq_true _ ▸ (Bool.eq_false_iff.mpr hc)

/-- Every call-site occurrence left anywhere in the final transformed
buffer has an unresolved key (when no catalog value contains a call-site
occurrence). -/
theorem transform_matches_unresolved (m : List (List Char × List Char))
    (orig : List Char) (hcat : (m.all fun kv => noOccB kv.2) = true) :
    ∀ (j : Nat) (r : List Char),
      msgMatch ((transform m orig).transformed.drop j) = some r →
      dictGet m (msgKey r) = none := by
  intro j r h
  rw [transform_buf] at h
  by_cases hc : pyContains includePat
      ((runMatches m orig (finditerFrom orig 0) 0).transformed) = true
  · rw [if_pos hc] at h
    obtain ⟨i, hi⟩ := pyReplace_msg_corr _ j r h
    exact spanOut_unresolved m orig (dict_noOcc m hcat) 0 i r hi
  · rw [if_neg hc] at h
    exact spanOut_unresolved m orig (dict_noOcc m hcat) 0 j r h

/-- The string-content scanner consumes a valid payload in full and stops
at the closing quote, returning the payload byte-for-byte. -/
theorem strContent_render : ∀ (v : List Char), validStrB v = true →
    ∀ (z : List Char), strContent (v ++ ('"' :: z)) = some (v, z)
  | [], _, z => by
    cases z with
    | nil => rfl
    | cons d t => rfl
  | [c], h, z => by
    have hq : ¬(c = '"') := by
      intro he; subst he; simp [validStrB] at h
    have hbs : ¬(c = '\\') := by
      intro he; subst he; simp [validStrB] at h
    cases z with
    | nil => simp [strContent, hq, hbs]
    | cons d t => simp [strContent, hq, hbs]
  | c :: d :: t, h, z => by
    by_cases hq : c = '"'
    · simp [validStrB, hq] at h
    · by_cases hbs : c = '\\'
      · have hd : ¬(d = '\n') := by
          intro he; simp [validStrB, hq, hbs, he] at h
        have ht : validStrB t = true := by
          simpa [validStrB, hq, hbs, hd] using h
        show strContent (c :: d :: (t ++ ('"' :: z))) = some (c :: d :: t, z)
        simp only [strContent, if_neg hq, if_pos hbs, if_neg hd,
          strContent_render t ht z, Option.map_some']
      · have ht : validStrB (d :: t) = true := by
          simpa [validStrB, hq, hbs] using h
        show strContent (c :: d :: (t ++ ('"' :: z))) = some (c :: d :: t, z)
        simp only [strContent, if_neg hq, if_neg hbs]
        rw [show d :: (t ++ ('"' :: z)) = (d :: t) ++ ('"' :: z) from rfl]
        rw [strContent_render (d :: t) ht z]
        rfl

/-- An entry match fails outright at any position not starting with an
opening bracket. -/
theorem entryMatch_not_bracket {c : Char} {t : List Char}
    (h : ¬(c = '[')) : entryMatch (c :: t) = none := by
  unfold entryMatch
  rw [show expectChar '[' (c :: t) = none from by simp [expectChar, h]]
  rfl

/-- The entry regex matches a rendered `[KEY] = "STRING"` entry at the head
of the input, capturing the key and the payload byte-for-byte. -/
theorem entryMatch_render {k a b v : List Char} (z : List Char)
    (hk : validKeyB k = true) (ha : (a.all isSpace) = true)
    (hb : (b.all isSpace) = true) (hv : validStrB v = true) :
    entryMatch (renderEntry k a b v ++ z) = some (k, v, z) := by
  have hne : ¬(k = []) := by
    intro he
    subst he
    simp [validKeyB] at hk
  have hkw : allW k := by
    intro ch hch
    simp only [validKeyB, Bool.and_eq_true, List.all_eq_true] at hk
    exact hk.2 ch hch
  have haw : ∀ c ∈ a, isSpace c = true := by
    intro c hc
    exact List.all_eq_true.mp ha c hc
  have hbw : ∀ c ∈ b, isSpace c = true := by
    intro c hc
    exact List.all_eq_true.mp hb c hc
  have h0 : renderEntry k a b v ++ z =
      '[' :: (k ++ (']' :: (a ++ ('=' :: (b ++ ('"' :: (v ++ ('"' :: z)))))))) := by
    simp [renderEntry]
  rw [h0]
  unfold entryMatch
  rw [show expectChar '['
      ('[' :: (k ++ (']' :: (a ++ ('=' :: (b ++ ('"' :: (v ++ ('"' :: z))))))))) =
      some (k ++ (']' :: (a ++ ('=' :: (b ++ ('"' :: (v ++ ('"' :: z))))))))
    from by simp [expectChar]]
  simp only [Option.bind_eq_bind, Option.some_bind]
  rw [wordRun_of_append (a ++ ('=' :: (b ++ ('"' :: (v ++ ('"' :: z)))))) hkw
    (by decide)]
  rw [if_neg hne, List.drop_left]
  rw [show expectChar ']'
      (']' :: (a ++ ('=' :: (b ++ ('"' :: (v ++ ('"' :: z))))))) =
      some (a ++ ('=' :: (b ++ ('"' :: (v ++ ('"' :: z))))))
    from by simp [expectChar]]
  simp only [Option.bind_eq_bind, Option.some_bind]
  rw [dropWhile_append_all haw]
  rw [show ('=' :: (b ++ ('"' :: (v ++ ('"' :: z))))).dropWhile isSpace =
      '=' :: (b ++ ('"' :: (v ++ ('"' :: z))))
    from by rw [List.dropWhile_cons, if_neg (by decide)]]
  rw [show expectChar '=' ('=' :: (b ++ ('"' :: (v ++ ('"' :: z))))) =
      some (b ++ ('"' :: (v ++ ('"' :: z))))
    from by simp [expectChar]]
  simp only [Option.bind_eq_bind, Option.some_bind]
  rw [dropWhile_append_all hbw]
  rw [show ('"' :: (v ++ ('"' :: z))).dropWhile isSpace =
      '"' :: (v ++ ('"' :: z))
    from by rw [List.dropWhile_cons, if_neg (by decide)]]
  rw [show expectChar '"' ('"' :: (v ++ ('"' :: z))) =
      some (v ++ ('"' :: z))
    from by simp [expectChar]]
  simp only [Option.bind_eq_bind, Option.some_bind]
  rw [strContent_render v hv z]
  simp only [Option.bind_eq_bind, Option.some_bind]
  rfl

/-- The entry-scan worker ignores its gas argument as long as the gas is at
least the buffer length. -/
theorem findEntriesGas_congr : ∀ (g g2 : Nat) (s : List Char),
    s.length ≤ g → s.length ≤ g2 → findEntriesGas g s = findEntriesGas g2 s
  | g, g2, [], _, _ => by cases g <;> cases g2 <;> rfl
  | 0, _, c :: t, hg, _ => by simp at hg
  | _ + 1, 0, c :: t, _, hg2 => by simp at hg2
  | g + 1, g2 + 1, c :: t, hg, hg2 => by
    cases hm : entryMatch (c :: t) with
    | some p =>
      obtain ⟨k, v, rest⟩ := p
      have hlen := entryMatch_length hm
      simp only [List.length_cons] at hg hg2 hlen
      simp only [findEntriesGas, hm]
      rw [findEntriesGas_congr g g2 rest (by omega) (by omega)]
    | none =>
      simp only [List.length_cons] at hg hg2
      simp only [findEntriesGas, hm]
      rw [findEntriesGas_congr g g2 t (by omega) (by omega)]

theorem findEntries_cons_none {c : Char} {t : List Char}
    (h : entryMatch (c :: t) = none) :
    findEntries (c :: t) = findEntries t := by
  show findEntriesGas (c :: t).length (c :: t) = findEntries t
  simp only [List.length_cons, findEntriesGas, h]
  rfl

theorem findEntries_cons_some {c : Char} {t k v rest : List Char}
    (h : entryMatch (c :: t) = some (k, v, rest)) :
    findEntries (c :: t) = (k, v) :: findEntries rest := by
  have hlen := entryMatch_length h
  simp only [List.length_cons] at hlen
  show findEntriesGas (c :: t).length (c :: t) = _
  simp only [List.length_cons, findEntriesGas, h]
  rw [findEntriesGas_congr t.length rest.length rest (by omega) le_rfl]
  rfl

/-- The entry scan slides over bracket-free filler without finding
anything in it. -/
theorem findEntries_skip : ∀ (w : List Char), noBracketB w = true →
    ∀ (s : List Char), findEntries (w ++ s) = findEntries s
  | [], _, s => rfl
  | c :: t, hw, s => by
    have h0 : ¬(c = '[') ∧ noBracketB t = true := by
      simp only [noBracketB, List.all_cons, Bool.and_eq_true] at hw
      refine ⟨by simpa using hw.1, by simpa [noBracketB] using hw.2⟩
    rw [List.cons_append, findEntries_cons_none (entryMatch_not_bracket h0.1)]
    exact findEntries_skip t h0.2 s

/-- The entry scan takes a rendered entry at the head of the input in one
step and resumes right after it. -/
theorem findEntries_entry {k a b v : List Char} (z : List Char)
    (hk : validKeyB k = true) (ha : (a.all isSpace) = true)
    (hb : (b.all isSpace) = true) (hv : validStrB v = true) :
    findEntries (renderEntry k a b v ++ z) = (k, v) :: findEntries z := by
  have hm := entryMatch_render z hk ha hb hv
  have h0 : renderEntry k a b v ++ z =
      '[' :: ((k ++ (']' :: (a ++ ('=' :: (b ++ ('"' :: (v ++ ['"']))))))) ++ z) := by
    simp [renderEntry]
  rw [h0] at hm ⊢
  exact findEntries_cons_some hm

/-- Scanning a rendered region body extracts exactly its entries, in order,
keys and payloads byte-for-byte. -/
theorem findEntries_render (wend : List Char) (hwend : noBracketB wend = true) :
    ∀ (items : List TableEntry), validEntries items = true →
    findEntries (renderBody items wend) = entriesOf items
  | [], _ => by
    show findEntries wend = []
    have h := findEntries_skip wend hwend []
    rw [List.append_nil] at h
    rw [h]
    rfl
  | e :: rest, hval => by
    have hsplit : validEntry e = true ∧ validEntries rest = true := by
      simpa [validEntries, List.all_cons, Bool.and_eq_true] using hval
    have he := hsplit.1
    simp only [validEntry, Bool.and_eq_true] at he
    show findEntries (e.sep ++
        (renderEntry e.key e.ws1 e.ws2 e.val ++ renderBody rest wend)) =
      (e.key, e.val) :: entriesOf rest
    rw [findEntries_skip e.sep he.1.1.1.1 _,
      findEntries_entry _ he.1.1.1.2 he.1.1.2 he.1.2 he.2,
      findEntries_render wend hwend rest hsplit.2]

/-- Lookup after one dict assignment: the assigned key now maps to the new
value, all other keys are untouched. -/
theorem dictGet_dictInsert (d : List (List Char × List Char))
    (k2 v k : List Char) :
    dictGet (dictInsert d k2 v) k =
      if k2 = k then some v else dictGet d k := by
  induction d with
  | nil => rfl
  | cons p t ih =>
    obtain ⟨x, y⟩ := p
    by_cases h1 : x = k2
    · subst h1
      rw [show dictInsert ((x, y) :: t) x v = (x, v) :: t from by
        simp [dictInsert]]
      by_cases h2 : x = k
      · simp [dictGet, h2]
      · simp [dictGet, h2]
    · rw [show dictInsert ((x, y) :: t) k2 v = (x, y) :: dictInsert t k2 v
        from by simp [dictInsert, h1]]
      by_cases h2 : x = k
      · have hk2 : ¬(k2 = k) := fun hh => h1 (by rw [h2, hh])
        simp [dictGet, h2, hk2]
      · simp [dictGet, h2, ih]

/-- Folding dict assignments over an entry list: a key ends up bound to its
last value in the list, or keeps its prior binding if it never appears. -/
theorem dictGet_foldl : ∀ (es d : List (List Char × List Char))
    (k : List Char),
    dictGet (es.foldl (fun d2 kv => dictInsert d2 kv.1 kv.2) d) k =
      match lastVal es k with
      | some w => some w
      | none => dictGet d k
  | [], d, k => rfl
  | (k2, v) :: es2, d, k => by
    show dictGet (es2.foldl (fun d2 kv => dictInsert d2 kv.1 kv.2)
        (dictInsert d k2 v)) k = _
    rw [dictGet_foldl es2 (dictInsert d k2 v) k, dictGet_dictInsert]
    rw [show lastVal ((k2, v) :: es2) k = (match lastVal es2 k with
      | some w => some w
      | none => if k2 = k then some v else none) from rfl]
    cases hlv : lastVal es2 k with
    | some w => rfl
    | none =>
      by_cases h2 : k2 = k
      · simp [h2]
      · simp [h2]

/-- Last-wins: looking a key up in the built dict returns the value of its
last entry in the source list. -/
theorem buildDict_last_wins (es : List (List Char × List Char))
    (k : List Char) : dictGet (buildDict es) k = lastVal es k := by
  show dictGet (es.foldl (fun d2 kv => dictInsert d2 kv.1 kv.2) []) k = _
  rw [dictGet_foldl es [] k]
  cases lastVal es k <;> rfl

/-- C1: for every input buffer and catalog, the rewriter's output buffer
decomposes into the original gap segments (byte-identical slices of the
input outside the matched call-site spans, in order) interleaved with
exactly one replacement segment per matched span, and the final buffer is
that decomposition with the include-directive substitution applied on top;
each skipped span's replacement segment is the original span itself, and
each resolved span's segment is the emitted macro call. -/
theorem C1_rewriter_frame_preservation (m : List (List Char × List Char))
    (orig : List Char) :
    (runMatches m orig (finditerFrom orig 0) 0).transformed =
      joinGR (gapsFrom orig (finditerFrom orig 0) 0)
        ((finditerFrom orig 0).map (repFor m orig)) ∧
    (transform m orig).transformed =
      (if pyContains includePat
          (joinGR (gapsFrom orig (finditerFrom orig 0) 0)
            ((finditerFrom orig 0).map (repFor m orig))) then
        pyReplace includePat includeRep
          (joinGR (gapsFrom orig (finditerFrom orig 0) 0)
            ((finditerFrom orig 0).map (repFor m orig)))
      else
        joinGR (gapsFrom orig (finditerFrom orig 0) 0)
          ((finditerFrom orig 0).map (repFor m orig))) := by
  have hd := runMatches_decomp m orig (finditerFrom orig 0) 0 rfl
  exact ⟨hd, by rw [transform_buf, hd]⟩

/-- C2: the classifier is pure and total, and applies first-match-wins
rules: a value containing `%` is always classified `LA_F` regardless of
context; otherwise a context whose tail (ignoring trailing whitespace) is a
quoted `%s` followed by a comma, or a closing parenthesis followed by a
comma, yields `LA_S`; otherwise `LA_W`. -/
theorem C2_classifier_priority (v ctx : List Char) :
    (v.elem '%' = true → choose_macro v ctx = chars "LA_F") ∧
    (v.elem '%' = false → (SpecChainedFmt ctx ∨ SpecChainedParen ctx) →
      choose_macro v ctx = chars "LA_S") ∧
    (v.elem '%' = false → ¬(SpecChainedFmt ctx ∨ SpecChainedParen ctx) →
      choose_macro v ctx = chars "LA_W") := by
  refine ⟨?_, ?_, ?_⟩
  · intro h
    unfold choose_macro
    rw [if_pos h]
  · intro h hsc
    unfold choose_macro
    rw [if_neg (by rw [h]; simp)]
    rcases hsc with hs | hs
    · rw [if_pos ((endsFmtComma_iff ctx).mpr hs)]
    · by_cases hf : endsFmtComma ctx = true
      · rw [if_pos hf]
      · rw [if_neg hf, if_pos ((endsParenComma_iff ctx).mpr hs)]
  · intro h hsc
    unfold choose_macro
    rw [if_neg (by rw [h]; simp)]
    rw [if_neg fun hf => hsc (Or.inl ((endsFmtComma_iff ctx).mp hf))]
    rw [if_neg fun hp => hsc (Or.inr ((endsParenComma_iff ctx).mp hp))]

/-- Witness for C2 at concrete inputs: a `%`-containing value beats a
chained context; a chained context (quoted `%s` + comma) yields `LA_S`; a
plain context yields `LA_W`. -/
theorem C2_classifier_priority_witness :
    choose_macro (chars "hi %s") (chars "foo) ,") = chars "LA_F" ∧
    choose_macro (chars "ok") (chars "f(\"%s\", ") = chars "LA_S" ∧
    choose_macro (chars "ok") (chars "bar") = chars "LA_W" := by
  refine ⟨(C2_classifier_priority (chars "hi %s") (chars "foo) ,")).1
    (by decide),
    (C2_classifier_priority (chars "ok") (chars "f(\"%s\", ")).2.1
      (by decide)
      (Or.inl ⟨chars "f(", [], [' '], by decide, by decide, by decide⟩),
    (C2_classifier_priority (chars "ok") (chars "bar")).2.2 (by decide) ?_⟩
  rintro (h | h)
  · exact absurd ((endsFmtComma_iff _).mpr h) (by decide)
  · exact absurd ((endsParenComma_iff _).mpr h) (by decide)

/-- C3: occurrences with an unresolved key are skip-safe: the replaced
counter counts exactly the resolved occurrences, the skipped count counts
exactly the unresolved ones (one stderr warning is emitted per unresolved
occurrence, carrying its key, in order), and each unresolved occurrence's
output segment is the original matched text, byte for byte. -/
theorem C3_skip_safety (m : List (List Char × List Char))
    (orig : List Char) :
    (transform m orig).replaced =
      ((finditerFrom orig 0).filter fun x =>
        (dictGet m x.2.1).isSome).length ∧
    (transform m orig).skipped =
      ((finditerFrom orig 0).filter fun x =>
        (dictGet m x.2.1).isNone).length ∧
    (transform m orig).warnings =
      ((finditerFrom orig 0).filter fun x =>
        (dictGet m x.2.1).isNone).map (fun x => x.2.1) ∧
    ((finditerFrom orig 0).filter fun x =>
        (dictGet m x.2.1).isNone).map (repFor m orig) =
      ((finditerFrom orig 0).filter fun x =>
        (dictGet m x.2.1).isNone).map (fun x => pySlice orig x.1 x.2.2) := by
  obtain ⟨h1, h2⟩ := runMatches_counts m orig (finditerFrom orig 0) 0
  refine ⟨by rw [transform_rep]; exact h1, ?_, ?_, ?_⟩
  · rw [RewriteResult.skipped, transform_warn, h2, List.length_map]
  · rw [transform_warn]
    exact h2
  · apply List.map_congr_left
    intro x hx
    have hnone : dictGet m x.2.1 = none :=
      Option.isNone_iff_eq_none.mp (by simpa using (List.mem_filter.mp hx).2)
    rw [repFor, hnone]

/-- Counterexample for C4: the batch loop has no exception handling, so a
missing first file aborts the whole run — even though the second file
exists and would have been rewritten (processing it alone succeeds). -/
theorem C4_counterexample :
    runBatch fsB mgood false ["a.c", "b.c"] = .error () ∧
    transform_file fsB mgood false "b.c" ≠ .error () := by
  constructor
  · rfl
  · intro h
    exact Except.noConfusion h

/-- C4 (amended): a missing or unreadable target file raises an uncaught
exception that aborts the entire batch run; the files after it are never
processed. -/
theorem C4_missing_file_aborts_batch (fs : FileSys)
    (m : List (List Char × List Char)) (dry : Bool) (p : String)
    (rest : List String) (h : fs p = none) :
    runBatch fs m dry (p :: rest) = .error () := by
  simp [runBatch, transform_file, h]

/-- Witness for C4 (amended) at a concrete input: `a.c` is absent, so the
batch over `[a.c, b.c]` aborts with an error. -/
theorem C4_missing_file_aborts_batch_witness :
    fsB "a.c" = none ∧
      runBatch fsB mgood false ["a.c", "b.c"] = .error () :=
  ⟨rfl, C4_missing_file_aborts_batch fsB mgood false "a.c" ["b.c"] rfl⟩

/-- Counterexample for C5: with the catalog `{MSG_A ↦ "MSG(MSG_A)"}` the
emitted macro call itself contains a call-site occurrence, so the second
pass performs one further replacement and changes the buffer again. -/
theorem C5_counterexample :
    (transform mbad (transform mbad
      (chars "MSG(MSG_A)")).transformed).replaced = 1 ∧
    (transform mbad (transform mbad
        (chars "MSG(MSG_A)")).transformed).transformed ≠
      (transform mbad (chars "MSG(MSG_A)")).transformed := by
  constructor
  · decide
  · decide

/-- C5 (amended): provided no catalog value contains an occurrence of the
call-site pattern, the rewriter is idempotent: the second pass yields zero
replacements and an unchanged buffer. -/
theorem C5_idempotence_amended (m : List (List Char × List Char))
    (orig : List Char) (hcat : (m.all fun kv => noOccB kv.2) = true) :
    (transform m (transform m orig).transformed).transformed =
      (transform m orig).transformed ∧
    (transform m (transform m orig).transformed).replaced = 0 := by
  have hall2 : ∀ x ∈ finditerFrom (transform m orig).transformed 0,
      dictGet m x.2.1 = none := by
    intro x hx
    obtain ⟨_, _, rr, hmr, hkr, _⟩ :=
      finditer_sound (transform m orig).transformed 0 x hx
    rw [hkr]
    exact transform_matches_unresolved m orig hcat x.1 rr hmr
  obtain ⟨hid, hrep⟩ :=
    runMatches_skip_id m (transform m orig).transformed 0 hall2
  rw [List.drop_zero] at hid
  constructor
  · rw [transform_buf, hid, transform_no_pat m orig]
    simp
  · rw [transform_rep]
    exact hrep

/-- Witness for C5 (amended) at a concrete input: a pattern-free catalog, a
buffer with one resolvable and one unresolvable occurrence. -/
theorem C5_idempotence_amended_witness :
    (mgood.all fun kv => noOccB kv.2) = true ∧
    ((transform mgood (transform mgood
        (chars "MSG(MSG_A) MSG(MSG_B)")).transformed).transformed =
      (transform mgood (chars "MSG(MSG_A) MSG(MSG_B)")).transformed ∧
    (transform mgood (transform mgood
      (chars "MSG(MSG_A) MSG(MSG_B)")).transformed).replaced = 0) :=
  ⟨by decide, C5_idempotence_amended mgood (chars "MSG(MSG_A) MSG(MSG_B)")
    (by decide)⟩

/-- C6: once the table region is located, the parser extracts every
`[KEY] = "STRING"` entry inside it into the mapping: for any list of
well-formed entries laid out with arbitrary bracket-free filler text
(whitespace, commas, comments) between them and whitespace around each `=`,
the parse result is exactly the dict built from those entries in order,
each string payload (escape sequences included) carried byte-for-byte,
uninterpreted, from the source text into the mapping; lookup in the built
dict returns the last binding of a key, so later duplicates silently
overwrite earlier ones, for every entry list; and a region containing no
entries yields the empty mapping without error. -/
theorem C6_catalog_extraction (text wend : List Char)
    (items : List TableEntry)
    (hreg : searchRegion text = some (renderBody items wend))
    (hitems : validEntries items = true)
    (hwend : noBracketB wend = true) :
    parse_en_table text = .ok (buildDict (entriesOf items)) ∧
    (∀ (es : List (List Char × List Char)) (k : List Char),
      dictGet (buildDict es) k = lastVal es k) ∧
    (items = [] → parse_en_table text = .ok []) := by
  have hmain : parse_en_table text = .ok (buildDict (entriesOf items)) := by
    simp only [parse_en_table, hreg]
    rw [findEntries_render wend hwend items hitems]
  refine ⟨hmain, fun es k => buildDict_last_wins es k, fun hnil => ?_⟩
  subst hnil
  rw [hmain]
  rfl

/-- Witness for C6 at concrete inputs: the four-entry catalog text (with a
duplicated key, a payload full of escape sequences, and comments between
entries) parses to exactly its rendered entries with the duplicate
resolved last-wins to "later", and the entry-free region text parses to
the empty mapping. -/
theorem C6_catalog_extraction_witness :
    (searchRegion catalogText1 = some (renderBody items1 (chars ",\n")) ∧
      validEntries items1 = true ∧ noBracketB (chars ",\n") = true) ∧
    parse_en_table catalogText1 = .ok (buildDict (entriesOf items1)) ∧
    dictGet (buildDict (entriesOf items1)) (chars "MSG_A") =
      lastVal (entriesOf items1) (chars "MSG_A") ∧
    lastVal (entriesOf items1) (chars "MSG_A") = some (chars "later") ∧
    (searchRegion catalogText2 =
        some (renderBody [] (chars " /* none */ ")) ∧
      noBracketB (chars " /* none */ ") = true) ∧
    parse_en_table catalogText2 = .ok [] :=
  ⟨⟨by decide, by decide, by decide⟩,
    (C6_catalog_extraction catalogText1 (chars ",\n") items1 (by decide)
      (by decide) (by decide)).1,
    (C6_catalog_extraction catalogText1 (chars ",\n") items1 (by decide)
      (by decide) (by decide)).2.1 (entriesOf items1) (chars "MSG_A"),
    by decide,
    ⟨by decide, by decide⟩,
    (C6_catalog_extraction catalogText2 (chars " /* none */ ") []
      (by decide) (by decide) (by decide)).2.2 rfl⟩

/-- C7: with `dry_run` true the driver never writes (the file system is
returned unchanged) and reports only when the replaced count is nonzero;
with `dry_run` false it writes back only when the transformed buffer
differs from the original, reporting a written or unchanged verdict. -/
theorem C7_dry_run_and_write_guard (fs : FileSys)
    (m : List (List Char × List Char)) (path : String) (orig : List Char)
    (h : fs path = some orig) :
    transform_file fs m true path = .ok (fs, (transform m orig).replaced,
      if (transform m orig).replaced ≠ 0 then
        some (.dryPreview path (transform m orig).replaced)
      else none) ∧
    transform_file fs m false path =
      (if (transform m orig).transformed = orig then
        .ok (fs, (transform m orig).replaced, some (.unchanged path))
      else
        .ok (writeFS fs path (transform m orig).transformed,
          (transform m orig).replaced,
          some (.written path (transform m orig).replaced))) := by
  constructor
  · unfold transform_file
    rw [h]
    simp
  · unfold transform_file
    rw [h]
    dsimp only
    by_cases hc : (transform m orig).transformed = orig
    · rw [if_pos hc, if_neg (by simp : ¬(false = true)),
        if_neg (not_not_intro hc)]
    · rw [if_neg hc, if_neg (by simp : ¬(false = true)), if_pos hc]

/-- Witness for C7 at a concrete input: one file containing one resolvable
occurrence. -/
theorem C7_dry_run_and_write_guard_witness :
    fs0 "t.c" = some (chars "x MSG(MSG_A);") ∧
    (transform_file fs0 mgood true "t.c" = .ok (fs0,
        (transform mgood (chars "x MSG(MSG_A);")).replaced,
        if (transform mgood (chars "x MSG(MSG_A);")).replaced ≠ 0 then
          some (.dryPreview "t.c"
            (transform mgood (chars "x MSG(MSG_A);")).replaced)
        else none) ∧
      transform_file fs0 mgood false "t.c" =
        (if (transform mgood (chars "x MSG(MSG_A);")).transformed =
            chars "x MSG(MSG_A);" then
          .ok (fs0, (transform mgood (chars "x MSG(MSG_A);")).replaced,
            some (.unchanged "t.c"))
        else
          .ok (writeFS fs0 "t.c"
              (transform mgood (chars "x MSG(MSG_A);")).transformed,
            (transform mgood (chars "x MSG(MSG_A);")).replaced,
            some (.written "t.c"
              (transform mgood (chars "x MSG(MSG_A);")).replaced)))) :=
  ⟨rfl, C7_dry_run_and_write_guard fs0 mgood "t.c" (chars "x MSG(MSG_A);")
    rfl⟩

/-- C8: on `foo(MSG(MSG_HELLO), MSG(MSG_BYE));` with the example catalog,
`MSG(MSG_HELLO)` becomes `LA_F("hello %s", 0)` (its value contains `%`),
`MSG(MSG_BYE)` becomes `LA_S("bye", 0)` (the original text before it ends
with a closing parenthesis and a comma), with replaced = 2 and
skipped = 0. -/
theorem C8_example_scenario :
    transform cat8 (chars "foo(MSG(MSG_HELLO), MSG(MSG_BYE));") =
      ⟨chars "foo(LA_F(\"hello %s\", 0), LA_S(\"bye\", 0));", 2, []⟩ ∧
    (transform cat8
      (chars "foo(MSG(MSG_HELLO), MSG(MSG_BYE));")).skipped = 0 := by
  constructor
  · decide
  · decide

/-- C9: only substrings exactly matching the call-site pattern are treated
as call sites.  In every buffer, each occurrence the scanner reports is
literally the text `MSG(MSG_` ++ r ++ `)` for some nonempty word-character
run r: its key is `MSG_` ++ r and its span covers exactly those 9 + |r|
characters, so an occurrence of any other shape is never matched; and a
buffer in which the exact pattern occurs nowhere (such as `MSG(foo)`,
`MSG(MSG_X, y)`, or `MSG( MSG_X )` with interior spaces) passes through
the rewrite byte-identical, with no warning and no change to either
counter. -/
theorem C9_only_exact_pattern (m : List (List Char × List Char))
    (orig : List Char) :
    (∀ x ∈ finditerFrom orig 0, ∃ r : List Char, r ≠ [] ∧ allW r ∧
      x.2.1 = msgKey r ∧ x.2.2 = x.1 + 9 + r.length ∧
      pySlice orig x.1 x.2.2 = msgSpan r) ∧
    (noOccB orig = true →
      finditerFrom orig 0 = [] ∧
      runMatches m orig (finditerFrom orig 0) 0 = ⟨orig, 0, []⟩ ∧
      (transform m orig).replaced = 0 ∧
      (transform m orig).warnings = [] ∧
      (pyContains includePat orig = false →
        transform m orig = ⟨orig, 0, []⟩)) := by
  constructor
  · intro x hx
    obtain ⟨h0, hlen, r, hm, hk, he⟩ := finditer_sound orig 0 x hx
    obtain ⟨hr, hw, rest, hdrop⟩ := msgMatch_iff.mp hm
    refine ⟨r, hr, hw, hk, he, ?_⟩
    show (orig.drop x.1).take (x.2.2 - x.1) = msgSpan r
    rw [he, show x.1 + 9 + r.length - x.1 = 9 + r.length from by omega,
      hdrop, take_of_append_le (by rw [msgSpan_length]),
      ← msgSpan_length, List.take_length]
  · intro hno
    have hnil : finditerFrom orig 0 = [] := by
      cases hf : finditerFrom orig 0 with
      | nil => rfl
      | cons x rest =>
        exfalso
        have hx : x ∈ finditerFrom orig 0 := by
          rw [hf]
          exact List.mem_cons_self x rest
        obtain ⟨_, _, r, hm, _, _⟩ := finditer_sound orig 0 x hx
        rw [noOccB_spec hno x.1] at hm
        exact Option.noConfusion hm
    have hrun : runMatches m orig (finditerFrom orig 0) 0 = ⟨orig, 0, []⟩ := by
      rw [hnil]
      show (⟨orig.drop 0, 0, []⟩ : RewriteResult) = ⟨orig, 0, []⟩
      rw [List.drop_zero]
    have hrep : (transform m orig).replaced = 0 := by
      rw [transform_rep, hrun]
    have hwarn : (transform m orig).warnings = [] := by
      rw [transform_warn, hrun]
    refine ⟨hnil, hrun, hrep, hwarn, fun hinc => ?_⟩
    have hbuf : (transform m orig).transformed = orig := by
      rw [transform_buf, hrun]
      show (if pyContains includePat orig then
        pyReplace includePat includeRep orig else orig) = orig
      rw [hinc]
      simp
    cases hT : transform m orig with
    | mk t n w =>
      rw [hT] at hbuf hrep hwarn
      rw [show (⟨t, n, w⟩ : RewriteResult).transformed = t from rfl] at hbuf
      rw [show (⟨t, n, w⟩ : RewriteResult).replaced = n from rfl] at hrep
      rw [show (⟨t, n, w⟩ : RewriteResult).warnings = w from rfl] at hwarn
      rw [hbuf, hrep, hwarn]

/-- Witness for C9 at the three other-shape buffers: in each, the exact
pattern occurs nowhere, so the rewrite is the identity with zero counters
and no warning. -/
theorem C9_only_exact_pattern_witness :
    (noOccB (chars "MSG(foo)") = true ∧
      pyContains includePat (chars "MSG(foo)") = false ∧
      transform mgood (chars "MSG(foo)") = ⟨chars "MSG(foo)", 0, []⟩) ∧
    (noOccB (chars "MSG(MSG_X, y)") = true ∧
      transform mgood (chars "MSG(MSG_X, y)") =
        ⟨chars "MSG(MSG_X, y)", 0, []⟩) ∧
    (noOccB (chars "MSG( MSG_X )") = true ∧
      transform mgood (chars "MSG( MSG_X )") =
        ⟨chars "MSG( MSG_X )", 0, []⟩) :=
  ⟨⟨by decide, by decide,
    ((C9_only_exact_pattern mgood (chars "MSG(foo)")).2
      (by decide)).2.2.2.2 (by decide)⟩,
   ⟨by decide,
    ((C9_only_exact_pattern mgood (chars "MSG(MSG_X, y)")).2
      (by decide)).2.2.2.2 (by decide)⟩,
   ⟨by decide,
    ((C9_only_exact_pattern mgood (chars "MSG( MSG_X )")).2
      (by decide)).2.2.2.2 (by decide)⟩⟩

/-- C10: the include substitution removes every occurrence of
`#include "p2p_lang.h"` from the final buffer, never touches the replaced
counter, and on a file whose only change is this substitution (two
occurrences, zero call sites) write mode writes the file and reports it
with replaced = 0, while dry-run mode produces no report at all. -/
theorem C10_include_directive (m : List (List Char × List Char))
    (orig : List Char) :
    pyContains includePat (transform m orig).transformed = false ∧
    (transform m orig).replaced =
      (runMatches m orig (finditerFrom orig 0) 0).replaced ∧
    transform_file fsInc [] false "i.c" =
      .ok (writeFS fsInc "i.c"
        (chars "#include \"LANG.h\"\nx\n#include \"LANG.h\"\n"), 0,
        some (.written "i.c" 0)) ∧
    transform_file fsInc [] true "i.c" = .ok (fsInc, 0, none) := by
  refine ⟨transform_no_pat m orig, transform_rep m orig, ?_, ?_⟩
  · rfl
  · rfl
